import Mathlib

set_option maxRecDepth 100000

/-!
Verification development for the muffin-simple-arbitrage swap-simulation
engine: a shallow embedding of the integer tick/price math, the pool
arithmetic primitives, the multi-tier allocation solver, the swap-step
executor, the pool simulator (with an explicit heap so that array aliasing
and the copy-on-quote discipline are modelled faithfully), and the
profit-maximizing search, together with theorems about them.

Machine integers of the source are arbitrary-precision Python ints; they are
embedded as `Int`/`Nat`.  Python floor division `//` is `Int.fdiv`.
-/

/- ------------------------------------------------------------------ -/
/- muffin_arb/impl/int/math_utils/basic_math.py (module not present in
   the source tree; modelled from the spec)                            -/
/- ------------------------------------------------------------------ -/

/-- Modelled from the spec: `floor_div` of the missing `basic_math` module —
Python's integer floor division `a // b` (round toward minus infinity). -/
def floor_div (a b : Int) : Int := Int.fdiv a b

/-- Modelled from the spec: `ceil_div` of the missing `basic_math` module —
ceiling division, `-((-a) // b)`. -/
def ceil_div (a b : Int) : Int := -(Int.fdiv (-a) b)

/-- Modelled from the spec: `Q72 = 2^72`, the fixed-point scale of sqrt prices
(72 fractional bits). -/
def Q72 : Int := 2 ^ 72

/-- Modelled from the spec: `E5 = 10^5`, the denominator of `sqrtGamma`. -/
def E5 : Int := 10 ^ 5

/-- Modelled from the spec: `E10 = 10^10`, the denominator of
`gamma = sqrtGamma^2`. -/
def E10 : Int := 10 ^ 10

/- ------------------------------------------------------------------ -/
/- muffin_arb/impl/int/math_utils/tick_math.py                         -/
/- ------------------------------------------------------------------ -/

def MIN_TICK : Int := -776363
def MAX_TICK : Int := 776363
def NFRAC : Nat := 72

/-- The twenty precomputed constants of `_tick_to_sqrt_p`
(the `# [k]` comments of the source), indexed by bit position. -/
def tickC : Nat → Nat
  | 0  => 0xFFFCB933BD6FAD37AA2D162D1A594001
  | 1  => 0xFFF97272373D413259A46990580E213A
  | 2  => 0xFFF2E50F5F656932EF12357CF3C7FDCC
  | 3  => 0xFFE5CACA7E10E4E61C3624EAA0941CD0
  | 4  => 0xFFCB9843D60F6159C9DB58835C926644
  | 5  => 0xFF973B41FA98C081472E6896DFB254C0
  | 6  => 0xFF2EA16466C96A3843EC78B326B52861
  | 7  => 0xFE5DEE046A99A2A811C461F1969C3053
  | 8  => 0xFCBE86C7900A88AEDCFFC83B479AA3A4
  | 9  => 0xF987A7253AC413176F2B074CF7815E54
  | 10 => 0xF3392B0822B70005940C7A398E4B70F3
  | 11 => 0xE7159475A2C29B7443B29C7FA6E889D9
  | 12 => 0xD097F3BDFD2022B8845AD8F792AA5825
  | 13 => 0xA9F746462D870FDF8A65DC1F90E061E5
  | 14 => 0x70D869A156D2A1B890BB3DF62BAF32F7
  | 15 => 0x31BE135F97D08FD981231505542FCFA6
  | 16 => 0x9AA508B5B7A84E1C677DE54F3E99BC9
  | 17 => 0x5D6AF8DEDB81196699C329225EE604
  | 18 => 0x2216E584F5FA1EA926041BEDFE98
  | 19 => 0x48A170391F7DC42444E8FA2
  | _  => 0

/-- One conditional multiply-and-shift of the accumulator: applied when bit
`k` of `x = |tick|` is set (`if x & 2^k > 0: r = (r * consts[k]) >> 128`). -/
def rStep (x k : Nat) (r : Nat) : Nat :=
  if x &&& (2 ^ k) > 0 then (r * tickC k) >>> 128 else r

/-- The 20-step accumulator chain of `_tick_to_sqrt_p`, starting from
`r = 1 << 128`. -/
def rAcc (x : Nat) : Nat :=
  (List.range 20).foldl (fun r k => rStep x k r) (1 <<< 128)

/-- Round `r` (128 fractional bits) up to 72 fractional bits:
`(r >> nshift) + int(r % (1 << nshift) > 0)` with `nshift = 56`. -/
def shrink (r : Nat) : Nat :=
  let nshift := 128 - NFRAC
  (r >>> nshift) + (if r % (1 <<< nshift) > 0 then 1 else 0)

/-- `_tick_to_sqrt_p(tick)`: iterative bit-decomposition of `|tick|` against
the 20 constants, inversion for non-negative ticks, then the round-up shrink
from 128 to 72 fractional bits.  The in-range assertion of the source is a
precondition carried by the theorems. -/
def _tick_to_sqrt_p (tick : Int) : Int :=
  let x : Nat := tick.natAbs
  let r : Nat := rAcc x
  let r : Nat := if tick ≥ 0 then (2 ^ 256 - 1) / r else r
  Int.ofNat (shrink r)

/-- One refinement step of the `log2` loop of `_sqrt_p_to_tick`
(`y = (y*y) >> 127; if y >= 1 << 128: y >>= 1; res |= 1 << i`).
Setting bit `i` of `res` is addition of `2^i`, exact because the loop visits
each `i` once, descending, and the low 64 bits of `res` start at zero. -/
def logStep (st : Nat × Int) (i : Nat) : Nat × Int :=
  let y := (st.1 * st.1) >>> 127
  if y ≥ 1 <<< 128 then (y >>> 1, st.2 + 2 ^ i) else (y, st.2)

/-- The descending levels `63, 62, …, 46` of the `log2` refinement loop
(`for i in range(63, 45, -1)`). -/
def logLevels : List Nat :=
  [63, 62, 61, 60, 59, 58, 57, 56, 55, 54, 53, 52, 51, 50, 49, 48, 47, 46]

/-- Most-significant-bit scan of `_sqrt_p_to_tick` (the cascade of seven
`if xc >= 2^s` tests). -/
def msbScan (sp : Nat) : Nat :=
  let (xc, msb) := if sp ≥ 0x10000000000000000 then (sp >>> 64, 64) else (sp, 0)
  let (xc, msb) := if xc ≥ 0x100000000 then (xc >>> 32, msb + 32) else (xc, msb)
  let (xc, msb) := if xc ≥ 0x10000 then (xc >>> 16, msb + 16) else (xc, msb)
  let (xc, msb) := if xc ≥ 0x100 then (xc >>> 8, msb + 8) else (xc, msb)
  let (xc, msb) := if xc ≥ 0x10 then (xc >>> 4, msb + 4) else (xc, msb)
  let (xc, msb) := if xc ≥ 0x4 then (xc >>> 2, msb + 2) else (xc, msb)
  if xc ≥ 0x2 then msb + 1 else msb

/-- Arithmetic right shift by 128 bits of a signed value (Python `>> 128`
on `int` rounds toward minus infinity). -/
def sar128 (a : Int) : Int := Int.fdiv a (2 ^ 128)

/-- `_sqrt_p_to_tick(sqrt_p)`: msb scan plus iterative-squaring `log2`,
affine transform to tick units, two candidate ticks, and the asymmetric
tie-break selecting `tick_upper` when `sqrt_p >= _tick_to_sqrt_p(tick_upper)`.
The `0 < sqrt_p < 2^128` assertion of the source is a precondition carried by
the theorems. -/
def _sqrt_p_to_tick (sqrt_p : Nat) : Int :=
  let x := sqrt_p
  let msb := msbScan sqrt_p
  let res : Int := (Int.ofNat msb - Int.ofNat NFRAC) * 2 ^ 64
  let y : Nat := x <<< (127 - msb)
  let st := logLevels.foldl logStep (y, res)
  let res : Int := st.2 * 255738958999603826347141
  let tick_upper : Int := sar128 (res + 17996007701288367970265332090599899137)
  let tick_lower : Int :=
    sar128 (if res < (-676363) * 2 ^ 128 then
              res - 98577143636729737466164032634120830977
            else if res < (-476363) * 2 ^ 128 then
              res - 527810000259722480933883300202676225
            else res)
  if tick_upper == tick_lower then tick_upper
  else if Int.ofNat sqrt_p ≥ _tick_to_sqrt_p tick_upper then tick_upper
  else tick_lower

example : _tick_to_sqrt_p 0 = 2 ^ 72 := by decide
example : _tick_to_sqrt_p MIN_TICK = 65539 := by decide
example : _tick_to_sqrt_p MAX_TICK = 340271175397327323250730767849398346765 := by decide
example : _sqrt_p_to_tick (2 ^ 72) = 0 := by decide
example : _sqrt_p_to_tick 65539 = MIN_TICK := by decide
example : _sqrt_p_to_tick ((2 ^ 72) + 12345678) = 0 := by decide

/- ------------------------------------------------------------------ -/
/- muffin_arb/impl/int/math_utils/pool_math.py                         -/
/- ------------------------------------------------------------------ -/

/-- `div(a, b, round_up)`. -/
def div (a b : Int) (round_up : Bool) : Int :=
  if round_up then ceil_div a b else floor_div a b

/-- `calc_amt0_from_sqrt_p`: `Δx = L (√P0 - √P1) / (√P0 √P1)` in Q72, computed
on the larger-price-first ordering and negated when the price went up. -/
def calc_amt0_from_sqrt_p (sqrt_p0 sqrt_p1 liquidity : Int) : Int :=
  let price_up := sqrt_p1 > sqrt_p0
  let p0 := if price_up then sqrt_p1 else sqrt_p0
  let p1 := if price_up then sqrt_p0 else sqrt_p1
  let amt0 := div (liquidity * (p0 - p1) * Q72) (p0 * p1) (!price_up)
  if price_up then -amt0 else amt0

/-- `calc_amt1_from_sqrt_p`: `Δy = L (√P0 - √P1)` in Q72. -/
def calc_amt1_from_sqrt_p (sqrt_p0 sqrt_p1 liquidity : Int) : Int :=
  let price_down := sqrt_p1 < sqrt_p0
  let p0 := if price_down then sqrt_p1 else sqrt_p0
  let p1 := if price_down then sqrt_p0 else sqrt_p1
  let amt1 := div (liquidity * (p1 - p0)) Q72 (!price_down)
  if price_down then -amt1 else amt1

/-- `calc_sqrt_p_from_amt`: new sqrt price after pushing a signed amount into
one side of a position, with the explicit 256-bit-overflow reordering in the
token0 branch. -/
def calc_sqrt_p_from_amt (is_token0 : Bool) (sqrt_p0 liquidity amt : Int) : Int :=
  if is_token0 then
    if |amt| * sqrt_p0 ≥ 2 ^ 256 then
      ceil_div (liquidity * Q72) (floor_div (liquidity * Q72) sqrt_p0 + amt)
    else
      ceil_div (liquidity * sqrt_p0 * Q72) (liquidity * Q72 + amt * sqrt_p0)
  else
    if amt ≥ 0 then
      sqrt_p0 + floor_div (amt * Q72) liquidity
    else
      sqrt_p0 - ceil_div (|amt| * Q72) liquidity

/- ------------------------------------------------------------------ -/
/- muffin_arb/impl/int/math_utils/swap_math.py                         -/
/- ------------------------------------------------------------------ -/

/-- Sum of the entries of `xs` selected by the boolean mask
(`np.sum(xs[mask])`). -/
def maskedSum (mask : List Bool) (xs : List Int) : Int :=
  (List.zipWith (fun m x => if m then x else 0) mask xs).sum

/-- `amts[mask] = ...; amts[~mask] = old` — recompute the masked entries from
`lsg`/`res`, keep the stale values elsewhere. -/
def assignMasked (mask : List Bool) (lsg res amts : List Int)
    (lambda_denom lambda_num : Int) : List Int :=
  List.zipWith (fun (m : Bool) (p : (Int × Int) × Int) =>
      if m then floor_div (p.1.1 * lambda_denom) lambda_num - p.1.2 else p.2)
    mask ((lsg.zip res).zip amts)

/-- `amts[~mask] = 0`. -/
def zeroUnmasked (mask : List Bool) (amts : List Int) : List Int :=
  List.zipWith (fun m a => if m then a else 0) mask amts

/-- The reject-and-resolve loop of `calc_tier_amounts_in`: compute the masked
amounts from the common multiplier, stop when all masked amounts are
non-negative, otherwise reject the violating tiers and re-solve.  `fuel`
bounds the number of iterations; `none` means the bound was exhausted. -/
def calcTAInLoop (lsg res : List Int) (amount : Int) :
    Nat → List Bool → List Int → Option (List Int × List Bool)
  | 0, _, _ => none
  | fuel + 1, mask, amts =>
    let lambda_num := maskedSum mask lsg
    let lambda_denom := maskedSum mask res + amount
    let amts' := assignMasked mask lsg res amts lambda_denom lambda_num
    if (List.zipWith (fun (m : Bool) (a : Int) => !m || decide (a ≥ 0)) mask amts').all id then
      some (zeroUnmasked mask amts', mask)
    else
      calcTAInLoop lsg res amount fuel
        (List.zipWith (fun m a => m && decide (a ≥ 0)) mask amts') amts'

/-- `calc_tier_amounts_in(is_token0, amount, tier_choices, sqrt_gammas,
sqrt_prices, liquiditys)` (requires `amount > 0`).  The iteration bound
`length + 1` is shown sufficient separately. -/
def calc_tier_amounts_in (is_token0 : Bool) (amount : Int) (tier_choices : List Bool)
    (sqrt_gammas sqrt_prices liquiditys : List Int) :
    Option (List Int × List Bool) :=
  let lsg := List.zipWith (fun liq g => ceil_div (liq * E5) g) liquiditys sqrt_gammas
  let res := if is_token0 then
      List.zipWith (fun (liq : Int) (pg : Int × Int) => ceil_div (liq * Q72 * E10) (pg.1 * pg.2 ^ 2))
        liquiditys (sqrt_prices.zip sqrt_gammas)
    else
      List.zipWith (fun (liq : Int) (pg : Int × Int) => ceil_div (liq * pg.1) (floor_div (Q72 * pg.2 ^ 2) E10))
        liquiditys (sqrt_prices.zip sqrt_gammas)
  calcTAInLoop lsg res amount (tier_choices.length + 1) tier_choices
    (List.replicate sqrt_gammas.length 0)

/-- The reject-and-resolve loop of `calc_tier_amounts_out`: ceiling division,
stop when all masked amounts are non-positive. -/
def calcTAOutLoop (lsg res : List Int) (amount : Int) :
    Nat → List Bool → List Int → Option (List Int × List Bool)
  | 0, _, _ => none
  | fuel + 1, mask, amts =>
    let lambda_num := maskedSum mask lsg
    let lambda_denom := maskedSum mask res + amount
    let amts' := List.zipWith (fun (m : Bool) (p : (Int × Int) × Int) =>
        if m then ceil_div (p.1.1 * lambda_denom) lambda_num - p.1.2 else p.2)
      mask ((lsg.zip res).zip amts)
    if (List.zipWith (fun (m : Bool) (a : Int) => !m || decide (a ≤ 0)) mask amts').all id then
      some (zeroUnmasked mask amts', mask)
    else
      calcTAOutLoop lsg res amount fuel
        (List.zipWith (fun m a => m && decide (a ≤ 0)) mask amts') amts'

/-- `calc_tier_amounts_out(is_token0, amount, ...)` (requires `amount < 0`). -/
def calc_tier_amounts_out (is_token0 : Bool) (amount : Int) (tier_choices : List Bool)
    (sqrt_gammas sqrt_prices liquiditys : List Int) :
    Option (List Int × List Bool) :=
  let lsg := List.zipWith (fun liq g => floor_div (liq * E5) g) liquiditys sqrt_gammas
  let res := if is_token0 then
      List.zipWith (fun (liq : Int) (p : Int) => floor_div (liq * Q72) p) liquiditys sqrt_prices
    else
      List.zipWith (fun (liq : Int) (p : Int) => floor_div (liq * p) Q72) liquiditys sqrt_prices
  calcTAOutLoop lsg res amount (tier_choices.length + 1) tier_choices
    (List.replicate sqrt_gammas.length 0)

/-- Result of one swap step of one tier
(`(allowed, is_cross, amt_a, amt_b, sqrt_p_new, fee_amt)`). -/
structure StepResult where
  allowed : Bool
  is_cross : Bool
  amt_a : Int
  amt_b : Int
  sqrt_p_new : Int
  fee_amt : Int
  deriving Repr, DecidableEq

/-- `compute_step`: the swap-step executor of one tier. -/
def compute_step (is_token0 is_exact_in : Bool) (amount sqrt_gamma sqrt_p liquidity : Int)
    (next_tick : Int) : StepResult :=
  let amt_a := amount
  let sqrt_p_tick := _tick_to_sqrt_p next_tick
  let amt_tick := if is_token0 then calc_amt0_from_sqrt_p sqrt_p sqrt_p_tick liquidity
                  else calc_amt1_from_sqrt_p sqrt_p sqrt_p_tick liquidity
  let gamma := sqrt_gamma ^ 2
  let r : Bool × Int × Int × Int × Int :=  -- (is_cross, amt_a, amt_b, sqrt_p_new, amt_in_excl_fee)
    if is_exact_in then
      let amt_in_excl_fee := floor_div (amt_a * gamma) E10
      let is_cross := amt_in_excl_fee ≥ amt_tick
      let sqrt_p_new := if ¬is_cross then calc_sqrt_p_from_amt is_token0 sqrt_p liquidity amt_in_excl_fee
                        else sqrt_p_tick
      let amt_in_excl_fee := if ¬is_cross then amt_in_excl_fee else amt_tick
      let amt_a := if ¬is_cross then amt_a else ceil_div (amt_in_excl_fee * E10) gamma
      let amt_b := if is_token0 then calc_amt1_from_sqrt_p sqrt_p sqrt_p_new liquidity
                   else calc_amt0_from_sqrt_p sqrt_p sqrt_p_new liquidity
      (is_cross, amt_a, amt_b, sqrt_p_new, amt_in_excl_fee)
    else
      let is_cross := amt_a ≤ amt_tick
      let sqrt_p_new := if amt_a > amt_tick then calc_sqrt_p_from_amt is_token0 sqrt_p liquidity amt_a
                        else sqrt_p_tick
      let amt_a := if amt_a > amt_tick then amt_a else amt_tick
      let amt_in_excl_fee := if is_token0 then calc_amt1_from_sqrt_p sqrt_p sqrt_p_new liquidity
                             else calc_amt0_from_sqrt_p sqrt_p sqrt_p_new liquidity
      let amt_b := ceil_div (amt_in_excl_fee * E10) gamma
      (is_cross, amt_a, amt_b, sqrt_p_new, amt_in_excl_fee)
  let (is_cross, amt_a2, amt_b, sqrt_p_new, amt_in_excl_fee) := r
  let fee_amt := if is_exact_in then amt_a2 - amt_in_excl_fee else amt_b - amt_in_excl_fee
  if amt_in_excl_fee = 0 ∧ sqrt_p_new ≠ sqrt_p_tick then
    ⟨false, false, 0, 0, sqrt_p, 0⟩
  else
    ⟨true, is_cross, amt_a2, amt_b, sqrt_p_new, fee_amt⟩

/- ------------------------------------------------------------------ -/
/- muffin_arb/impl/int/pool_int.py                                     -/
/- ------------------------------------------------------------------ -/

/-- A heap of integer arrays and boolean arrays.  The numpy arrays of the
source live here; `Pool` fields and the swap-local `tier_choices` copy hold
references (indices) into it, so aliasing and the copy-on-quote discipline
are modelled faithfully. -/
structure Heap where
  ints : List (List Int)
  bools : List (List Bool)

def Heap.readI (h : Heap) (r : Nat) : List Int := h.ints.getD r []

def Heap.readB (h : Heap) (r : Nat) : List Bool := h.bools.getD r []

def Heap.writeI (h : Heap) (r : Nat) (v : List Int) : Heap :=
  { h with ints := h.ints.set r v }

def Heap.allocI (h : Heap) (v : List Int) : Nat × Heap :=
  (h.ints.length, { h with ints := h.ints ++ [v] })

def Heap.allocB (h : Heap) (v : List Bool) : Nat × Heap :=
  (h.bools.length, { h with bools := h.bools ++ [v] })

/-- `array[i] = v` on an integer array in the heap. -/
def Heap.setIElem (h : Heap) (r : Nat) (i : Nat) (v : Int) : Heap :=
  h.writeI r ((h.readI r).set i v)

/-- `array[i] = v` on a boolean array in the heap. -/
def Heap.setBElem (h : Heap) (r : Nat) (i : Nat) (v : Bool) : Heap :=
  { h with bools := h.bools.set r ((h.readB r).set i v) }

/-- The integer `Pool`: references to its five parallel arrays plus the
lazy tick-data accessor `(tier_id, tick_index) ->
(liquidity_delta, next_below, next_above)` (`none` models a failed fetch). -/
structure Pool where
  liquiditys : Nat
  sqrt_prices : Nat
  sqrt_gammas : Nat
  next_ticks_below : Nat
  next_ticks_above : Nat
  get_tick_data : Nat → Int → Option (Int × Int × Int)
  size : Nat

/-- The running accumulators of `Pool.swap` (`res_*` in the source). -/
structure Accum where
  amt_a : Int
  amt_b : Int
  fee_amt : Int
  amts_a : List Int
  amts_b : List Int
  fee_amts : List Int
  fee_growths : List Int
  step_count : Nat

/-- The return value of `Pool.swap` (the 12-tuple of the source; the last
four entries are the `.copy()`s of the mutable arrays). -/
structure SwapRes where
  res_amt_a : Int
  res_amt_b : Int
  res_fee_amt : Int
  res_amts_a : List Int
  res_amts_b : List Int
  res_fee_amts : List Int
  res_fee_growths : List Int
  res_step_count : Nat
  sqrt_prices : List Int
  liquiditys : List Int
  next_ticks_below : List Int
  next_ticks_above : List Int

/-- One index of the tick-crossing pass of a swap iteration (`for i in
np.nonzero(is_cross)[0]: ...`): disable the tier at a sentinel tick,
otherwise fetch the tick data and update liquidity and tick pointers
(`t_cross = next_ticks[i]` is read through the heap).  `none` models a
failing tick-data fetch. -/
def crossStep (p : Pool) (is_token0_in : Bool) (next_ticks tc : Nat)
    (steps : List StepResult) (hh : Heap) (i : Nat) : Option Heap :=
  if (steps.getD i ⟨false, false, 0, 0, 0, 0⟩).is_cross then
    if (hh.readI next_ticks).getD i 0 = MIN_TICK ∨
        (hh.readI next_ticks).getD i 0 = MAX_TICK then
      some (hh.setBElem tc i false)
    else
      match p.get_tick_data i ((hh.readI next_ticks).getD i 0) with
      | none => none
      | some (liquidity_delta, next_below, next_above) =>
        if is_token0_in then
          some (((hh.setIElem p.liquiditys i
                    ((hh.readI p.liquiditys).getD i 0 + -liquidity_delta)).setIElem
                  p.next_ticks_below i next_below).setIElem
                p.next_ticks_above i ((hh.readI next_ticks).getD i 0))
        else
          some (((hh.setIElem p.liquiditys i
                    ((hh.readI p.liquiditys).getD i 0 + liquidity_delta)).setIElem
                  p.next_ticks_above i next_above).setIElem
                p.next_ticks_below i ((hh.readI next_ticks).getD i 0))
  else some hh

/-- The tick-crossing pass of one swap iteration. -/
def crossPass (p : Pool) (is_token0_in : Bool) (next_ticks tc : Nat)
    (steps : List StepResult) (h : Heap) : Option Heap :=
  (List.range p.size).foldlM (crossStep p is_token0_in next_ticks tc steps) h

/-- The `while True` loop of `Pool.swap`.  `tc` is the swap-local copy of
`tier_choices`; `fuel` bounds the iterations (`none` when exhausted — the
integer source has no step bound of its own). -/
def swapLoop (p : Pool) (is_token0 : Bool) (amount_desired : Int) (tc : Nat) :
    Nat → Heap → Accum → Option (SwapRes × Heap)
  | 0, _, _ => none
  | fuel + 1, h, acc =>
    let is_exact_in := amount_desired > 0
    let is_token0_in := is_token0 = decide (amount_desired > 0)
    let next_ticks := if is_token0_in then p.next_ticks_below else p.next_ticks_above
    let gammas := h.readI p.sqrt_gammas
    let prices := h.readI p.sqrt_prices
    let liqs := h.readI p.liquiditys
    let tcs := h.readB tc
    let calcRes :=
      if is_exact_in then
        calc_tier_amounts_in is_token0 (amount_desired - acc.amt_a) tcs gammas prices liqs
      else
        calc_tier_amounts_out is_token0 (amount_desired - acc.amt_a) tcs gammas prices liqs
    match calcRes with
    | none => none
    | some (amts, enabled) =>
      let nts := h.readI next_ticks
      let steps : List StepResult := (List.range p.size).map (fun i =>
        if enabled.getD i false then
          compute_step is_token0 is_exact_in (amts.getD i 0) (gammas.getD i 0)
            (prices.getD i 0) (liqs.getD i 0) (nts.getD i 0)
        else ⟨false, false, 0, 0, 0, 0⟩)
      let acc' : Accum := {
        amt_a := acc.amt_a + (steps.map (·.amt_a)).sum
        amt_b := acc.amt_b + (steps.map (·.amt_b)).sum
        fee_amt := acc.fee_amt + (steps.map (·.fee_amt)).sum
        amts_a := List.zipWith (· + ·) acc.amts_a (steps.map (·.amt_a))
        amts_b := List.zipWith (· + ·) acc.amts_b (steps.map (·.amt_b))
        fee_amts := List.zipWith (· + ·) acc.fee_amts (steps.map (·.fee_amt))
        fee_growths := List.zipWith (· + ·) acc.fee_growths
          (List.zipWith (fun (s : StepResult) liq => floor_div (s.fee_amt * 2 ^ 64) liq)
            steps liqs)
        step_count := acc.step_count + 1 }
      let h1 := h.writeI p.sqrt_prices
        (List.zipWith (fun (s : StepResult) old => if s.allowed then s.sqrt_p_new else old)
          steps prices)
      match crossPass p is_token0_in next_ticks tc steps h1 with
      | none => none
      | some h2 =>
        if ¬ ((h2.readB tc).any id) ∨
            (if is_exact_in then amount_desired - acc'.amt_a ≤ 100
             else amount_desired - acc'.amt_a ≥ -100) then
          some ({ res_amt_a := acc'.amt_a, res_amt_b := acc'.amt_b,
                  res_fee_amt := acc'.fee_amt, res_amts_a := acc'.amts_a,
                  res_amts_b := acc'.amts_b, res_fee_amts := acc'.fee_amts,
                  res_fee_growths := acc'.fee_growths,
                  res_step_count := acc'.step_count,
                  sqrt_prices := h2.readI p.sqrt_prices,
                  liquiditys := h2.readI p.liquiditys,
                  next_ticks_below := h2.readI p.next_ticks_below,
                  next_ticks_above := h2.readI p.next_ticks_above }, h2)
        else
          swapLoop p is_token0 amount_desired tc fuel h2 acc'

/-- `Pool.swap(is_token0, amount_desired, tier_choices)`: copies the
caller's `tier_choices` array, then runs the swap loop. -/
def Pool.swap (h : Heap) (p : Pool) (is_token0 : Bool) (amount_desired : Int)
    (tier_choices : Nat) (fuel : Nat) : Option (SwapRes × Heap) :=
  let (tc, h1) := h.allocB (h.readB tier_choices)
  swapLoop p is_token0 amount_desired tc fuel h1
    { amt_a := 0, amt_b := 0, fee_amt := 0,
      amts_a := List.replicate p.size 0, amts_b := List.replicate p.size 0,
      fee_amts := List.replicate p.size 0, fee_growths := List.replicate p.size 0,
      step_count := 0 }

/-- `Pool.quote`: snapshot the four mutable arrays into fresh copies, run
`swap` on the copies, leave the pool's own arrays untouched. -/
def Pool.quote (h : Heap) (p : Pool) (is_token0 : Bool) (amount_desired : Int)
    (tier_choices : Nat) (fuel : Nat) : Option (SwapRes × Heap) :=
  let (l1, h1) := h.allocI (h.readI p.liquiditys)
  let (s1, h2) := h1.allocI (h.readI p.sqrt_prices)
  let (b1, h3) := h2.allocI (h.readI p.next_ticks_below)
  let (a1, h4) := h3.allocI (h.readI p.next_ticks_above)
  let p' : Pool := { p with liquiditys := l1, sqrt_prices := s1,
                            next_ticks_below := b1, next_ticks_above := a1 }
  Pool.swap h4 p' is_token0 amount_desired tier_choices fuel

/- ------------------------------------------------------------------ -/
/- muffin_arb/evaluate.py (and the token metadata it consumes)         -/
/- ------------------------------------------------------------------ -/

/-- `Token` metadata (`muffin_arb/token.py`): only the fields the evaluator
reads.  `unit = 10^decimals`. -/
structure Token where
  address : String
  decimals : Nat

def Token.unit (t : Token) : Int := 10 ^ t.decimals

/-- `gen_guess(x0, x1)`: the sequence `x0, x1, 2*x1, 4*x1, …` yielded by the
generator, as a total stream. -/
def gen_guess (x0 x1 : Int) : Nat → Option Int
  | 0 => some x0
  | n + 1 => some (x1 * 2 ^ n)

/-- Exact evaluation of the comparison `a / b ≤ r` (`a`, `b` integers, `r`
rational) by cross-multiplication — the `(mid-bounds[0])/mid <= xrtol` test
of `maximize`.  (Python evaluates the quotient in floating point; `b = 0`
would raise there, and the `b = 0` branch here is never reached by the
theorems below.) -/
def divLe (a b : Int) (r : ℚ) : Bool :=
  if 0 < b then a * r.den ≤ r.num * b
  else if b < 0 then r.num * b ≤ a * r.den
  else decide ((0 : ℚ) ≤ r)

lemma divLe_eq (a : Int) {b : Int} (r : ℚ) (hb : b ≠ 0) :
    divLe a b r = decide ((a : ℚ) / (b : ℚ) ≤ r) := by
  have hden : (0 : ℚ) < ((r.den : ℤ) : ℚ) := by exact_mod_cast r.den_pos
  have hr : (r : ℚ) = ((r.num : ℤ) : ℚ) / ((r.den : ℤ) : ℚ) := by
    exact_mod_cast (Rat.num_div_den r).symm
  rcases lt_or_gt_of_ne hb with h | h
  · have hbq : (0 : ℚ) < ((-b : ℤ) : ℚ) := by exact_mod_cast neg_pos.mpr h
    have key : ((a : ℚ) / (b : ℚ) ≤ r) ↔ r.num * b ≤ a * (r.den : ℤ) := by
      have h1 : (a : ℚ) / (b : ℚ) = ((-a : ℤ) : ℚ) / ((-b : ℤ) : ℚ) := by
        push_cast
        rw [neg_div_neg_eq]
      conv_lhs => rw [h1, hr, div_le_div_iff hbq hden]
      rw [show ((-a : ℤ) : ℚ) * ((r.den : ℤ) : ℚ) = ((-a * r.den : ℤ) : ℚ) by push_cast; ring,
        show ((r.num : ℤ) : ℚ) * ((-b : ℤ) : ℚ) = ((r.num * -b : ℤ) : ℚ) by push_cast; ring,
        Int.cast_le, neg_mul, mul_neg, neg_le_neg_iff]
    simp only [divLe, if_neg (by omega : ¬ (0 : ℤ) < b), if_pos h, decide_eq_decide]
    exact key.symm
  · have hbq : (0 : ℚ) < ((b : ℤ) : ℚ) := by exact_mod_cast h
    have key : ((a : ℚ) / (b : ℚ) ≤ r) ↔ a * (r.den : ℤ) ≤ r.num * b := by
      conv_lhs => rw [hr, div_le_div_iff hbq hden]
      rw [show ((a : ℤ) : ℚ) * ((r.den : ℤ) : ℚ) = ((a * r.den : ℤ) : ℚ) by push_cast; ring,
        show ((r.num : ℤ) : ℚ) * ((b : ℤ) : ℚ) = ((r.num * b : ℤ) : ℚ) by push_cast; ring,
        Int.cast_le]
    simp only [divLe, if_pos h, decide_eq_decide]
    exact key.symm

/-- The rational `1e-5 = 1/100000`, as a fully reduced constructor literal
(so that proofs by evaluation can compute with it). -/
def ratXrtol : ℚ := ⟨1, 100000, by norm_num, by norm_num⟩

/-- The `while True` loop of `maximize`, including the recursive 5-point
refinement (`return maximize(fn, iter(xs), …)`).  A generator is a stream
`Nat → Option Int` with a cursor; `none` from the stream models
`StopIteration`.  `fuel` bounds loop iterations plus recursion depth. -/
def maximizeLoop (fn : Int → Int) (xatol : Int) (xrtol : ℚ) (fatol : Int) :
    Nat → (Nat → Option Int) → Nat → Int → Int → Int → Int → Option Int
  | 0, _, _, _, _, _, _ => none
  | fuel + 1, gen, idx, bFirst, bPenult, bLast, y_prev =>
    let y := fn bLast
    if y > y_prev then
      match gen idx with
      | none => none
      | some nxt =>
        maximizeLoop fn xatol xrtol fatol fuel gen (idx + 1) bPenult bLast nxt y
    else
      let mid := floor_div (bFirst + bLast) 2
      if mid - bFirst ≤ xatol ∨ divLe (mid - bFirst) mid xrtol = true ∨
          y_prev - y ≤ fatol then
        some mid
      else
        let xs : List Int := [bFirst, floor_div (bFirst + mid) 2, mid,
                              floor_div (mid + bLast) 2, bLast]
        maximizeLoop fn xatol xrtol fatol fuel (fun n => xs.get? n) 2
          (xs.getD 0 0) (xs.getD 0 0) (xs.getD 1 0) 0

/-- `maximize(fn, gen, xatol, xrtol, fatol)`:
`bounds = (next(gen), next(gen)); y_prev = 0`, then the loop. -/
def maximize (fn : Int → Int) (gen : Nat → Option Int) (xatol : Int) (xrtol : ℚ)
    (fatol : Int) (fuel : Nat) : Option Int :=
  match gen 0, gen 1 with
  | some g0, some g1 => maximizeLoop fn xatol xrtol fatol fuel gen 2 g0 g0 g1 0
  | _, _ => none

/-- Outcome of `evaluate_arb`: the two typed `EvaluationFailure`s are kept
apart by their messages (`'Not profitable'` vs `'Negative profit'`);
`notImplemented` is the gas-conversion `NotImplementedError`; `searchFailed`
models a `maximize` call that does not return (fuel/`StopIteration`). -/
inductive EvalOutcome where
  | notProfitable (test_amt_net : Int)
  | negativeProfit (profit : Int)
  | notImplemented
  | searchFailed
  | ok (amt_in amt_bridge amt_out amt_net gas_cost gas_cost_wei profit : Int)
  deriving Repr, DecidableEq

/-- The memoized `arbitrage(x)` closure of `evaluate_arb`: one round trip
through both market quotes (`lru_cache` only caches a pure function and is
semantically transparent).  `quote1`/`quote2` are the in-scope views of
`market1.quote(token_in, ·)` and `market2.quote(token_bridge, ·)`. -/
def arbitrage (quote1 quote2 : Int → Int) (x : Int) : Int × Int × Int :=
  let amt_in := x
  let amt_bridge := quote1 amt_in * (-1)
  let amt_out := quote2 amt_bridge * (-1)
  (amt_out - amt_in, amt_bridge, amt_out)

/-- `evaluate_arb`: probe, maximizing search, gas guesstimate, and the two
failure raises.  `eth_address`/`usdc_address` are the settings constants. -/
def evaluate_arb (quote1 quote2 : Int → Int) (token_in : Token)
    (eth_address usdc_address : String) (gas_price : Int)
    (search_fuel : Nat) : EvalOutcome :=
  -- Step 1: test with an amount of 0.0001 tokens or 1000 base units
  let test_amt_in := max (floor_div token_in.unit (10 ^ 4)) 1000
  let test_amt_net := (arbitrage quote1 quote2 test_amt_in).1
  if test_amt_net ≤ 0 then .notProfitable test_amt_net
  else
    -- Step 2: find a token input amount that maximizes arb profit
    let fn := fun x => (arbitrage quote1 quote2 x).1
    match maximize fn (gen_guess 1 token_in.unit) 1 ratXrtol 1 search_fuel with
    | none => .searchFailed
    | some amt_in =>
      let (amt_net, amt_bridge, amt_out) := arbitrage quote1 quote2 amt_in
      -- Step 3: guesstimate a gas cost
      let gas_cost_wei := 190000 * gas_price
      if token_in.address = eth_address then
        let gas_cost := gas_cost_wei
        let profit := amt_net - gas_cost
        if profit ≤ 0 then .negativeProfit profit
        else .ok amt_in amt_bridge amt_out amt_net gas_cost gas_cost_wei profit
      else if token_in.address = usdc_address then
        let gas_cost := floor_div (gas_cost_wei * 2000 * 10 ^ 6) (10 ^ 18)
        let profit := amt_net - gas_cost
        if profit ≤ 0 then .negativeProfit profit
        else .ok amt_in amt_bridge amt_out amt_net gas_cost gas_cost_wei profit
      else .notImplemented

/- ------------------------------------------------------------------ -/
/- Division helpers: Python `//` (= `Int.fdiv`) and `ceil_div` against
   the mathematical floor/ceiling of the exact quotient.               -/
/- ------------------------------------------------------------------ -/

lemma fdiv_mul_le (a : ℤ) {b : ℤ} (hb : 0 < b) : b * a.fdiv b ≤ a := by
  rw [Int.fdiv_eq_ediv _ hb.le, mul_comm]
  exact Int.ediv_mul_le a hb.ne'

lemma lt_fdiv_add_one_mul (a : ℤ) {b : ℤ} (hb : 0 < b) : a < (a.fdiv b + 1) * b := by
  rw [Int.fdiv_eq_ediv _ hb.le]
  exact Int.lt_ediv_add_one_mul_self a hb

lemma floor_ratCast_eq_fdiv (a : ℤ) {b : ℤ} (hb : 0 < b) :
    ⌊(a : ℚ) / (b : ℚ)⌋ = a.fdiv b := by
  have hbq : (0 : ℚ) < (b : ℚ) := by exact_mod_cast hb
  rw [Int.floor_eq_iff]
  constructor
  · rw [le_div_iff hbq]
    exact_mod_cast (mul_comm (b : ℤ) (a.fdiv b) ▸ fdiv_mul_le a hb)
  · rw [div_lt_iff hbq]
    exact_mod_cast lt_fdiv_add_one_mul a hb

lemma ceil_ratCast_eq_ceil_div (a : ℤ) {b : ℤ} (hb : 0 < b) :
    ⌈(a : ℚ) / (b : ℚ)⌉ = ceil_div a b := by
  have hf := floor_ratCast_eq_fdiv (-a) hb
  have h2 : ((-a : ℤ) : ℚ) / (b : ℚ) = -((a : ℚ) / (b : ℚ)) := by
    push_cast; ring
  rw [h2, Int.floor_neg] at hf
  unfold ceil_div
  omega

/- ------------------------------------------------------------------ -/
/- C6: calc_sqrt_p_from_amt (token0 branch) vs the exact ceiling       -/
/- ------------------------------------------------------------------ -/

def c6_p0 : Int := 2 ^ 127 - 1
def c6_L : Int := 664613997892457937028645757420306432
def c6_amt : Int := 2722258935367507707689703036885042986991

/-- C6 (counterexample): at `p0 = 2^127 - 1`,
`L = 664613997892457937028645757420306432`,
`amt = 2722258935367507707689703036885042986991` (which satisfies
`|amt|·p0 ≥ 2^256`, `0 < p0 < 2^128`, `L > 0`), the reordered overflow
branch of `calc_sqrt_p_from_amt` returns `2^60 + 2` while the exact ceiling
of `L·p0·2^72 / (L·2^72 + amt·p0)` is `2^60 + 1` — the claimed agreement
with the exact ceiling fails. -/
theorem c6_counterexample :
    0 < c6_p0 ∧ c6_p0 < 2 ^ 128 ∧ 0 < c6_L ∧ |c6_amt| * c6_p0 ≥ 2 ^ 256 ∧
    calc_sqrt_p_from_amt true c6_p0 c6_L c6_amt = 1152921504606846978 ∧
    ⌈((c6_L * c6_p0 * Q72 : Int) : ℚ) / ((c6_L * Q72 + c6_amt * c6_p0 : Int) : ℚ)⌉ =
      1152921504606846977 := by
  refine ⟨by decide, by decide, by decide, by decide, by decide, ?_⟩
  rw [ceil_ratCast_eq_ceil_div _ (by decide)]
  decide

/-- C6 (amended): for the token0 branch with `0 < p0 < 2^128`, `L > 0` and a
positive denominator, the direct branch (`|amt|·p0 < 2^256`) returns exactly
the ceiling of `L·p0·2^72 / (L·2^72 + amt·p0)`; in the overflow regime
(`|amt|·p0 ≥ 2^256`) the computation is reordered to
`ceil(L·2^72 / (floor(L·2^72 / p0) + amt))`, which avoids the 256-bit
product but may differ from the exact ceiling. -/
theorem c6_amended (p0 L amt : Int) (hp : 0 < p0) (hp2 : p0 < 2 ^ 128) (hL : 0 < L)
    (hden : 0 < L * Q72 + amt * p0) :
    (|amt| * p0 < 2 ^ 256 →
      calc_sqrt_p_from_amt true p0 L amt =
        ⌈((L * p0 * Q72 : Int) : ℚ) / ((L * Q72 + amt * p0 : Int) : ℚ)⌉) ∧
    (|amt| * p0 ≥ 2 ^ 256 →
      calc_sqrt_p_from_amt true p0 L amt =
        ceil_div (L * Q72) (floor_div (L * Q72) p0 + amt)) := by
  constructor
  · intro hlt
    rw [ceil_ratCast_eq_ceil_div _ hden]
    simp only [calc_sqrt_p_from_amt, if_true]
    rw [if_neg (not_le.mpr hlt)]
  · intro hge
    simp only [calc_sqrt_p_from_amt, if_true]
    rw [if_pos hge]

/-- C6 (witness for the amended theorem): at `p0 = 2^72`, `L = 10^9`,
`amt = 10^6` the hypotheses hold and the direct branch equals the exact
ceiling. -/
theorem c6_amended_witness :
    calc_sqrt_p_from_amt true (2 ^ 72) (10 ^ 9) (10 ^ 6) =
      ⌈((10 ^ 9 * 2 ^ 72 * Q72 : Int) : ℚ) /
        ((10 ^ 9 * Q72 + 10 ^ 6 * 2 ^ 72 : Int) : ℚ)⌉ :=
  (c6_amended (2 ^ 72) (10 ^ 9) (10 ^ 6) (by decide) (by decide) (by decide)
    (by decide)).1 (by decide)

/- ------------------------------------------------------------------ -/
/- C9: the expand-then-refine search on the synthetic concave target   -/
/- ------------------------------------------------------------------ -/

/-- The synthetic strictly concave objective `f(x) = -(x-500000)^2 + C`. -/
def concaveObj (C : Int) : Int → Int := fun x => -(x - 500000) ^ 2 + C

/-- C9 (counterexample): with `C = 0` and `x1 = 1` the search returns `1`
(the internal `y_prev = 0` seed means a non-positive objective never counts
as an improvement, so the very first bisection stop fires), which is not
within `1` of `500000`. -/
theorem c9_counterexample :
    ratXrtol = 1 / 100000 ∧
    maximize (concaveObj 0) (gen_guess 1 1) 1 ratXrtol 1 100 = some 1 ∧
    ¬ |(1 : Int) - 500000| ≤ 1 := by
  refine ⟨by rw [ratXrtol, Rat.mk'_eq_divInt, Rat.divInt_eq_div]; norm_num, by decide, by decide⟩

/-- C9 (amended): for peak values `C` large enough that the objective is
positive on the expansion path (`C ∈ {249999000002, 250000000000, 10^12}`)
and starting guesses `x1 ∈ {1, 2, 1000, 10^6}` that are not too coarse,
`maximize` with `xatol = 1`, `xrtol = 1e-5`, `fatol = 1` returns a value
within `1` of the maximizer `500000`.  (For `C = 0` the search returns `1`,
and for `x1 = 10^12` it returns `499998`: the claim does not hold for every
`C` and `x1`.) -/
theorem c9_amended (C x1 : Int)
    (hC : C ∈ ([249999000002, 250000000000, 10 ^ 12] : List Int))
    (hx : x1 ∈ ([1, 2, 1000, 10 ^ 6] : List Int)) :
    ∃ x, maximize (concaveObj C) (gen_guess 1 x1) 1 ratXrtol 1 100 = some x ∧
      |x - 500000| ≤ 1 := by
  fin_cases hC <;> fin_cases hx
  · exact ⟨499999, by decide, by decide⟩
  · exact ⟨499999, by decide, by decide⟩
  · exact ⟨500001, by decide, by decide⟩
  · exact ⟨500000, by decide, by decide⟩
  · exact ⟨499999, by decide, by decide⟩
  · exact ⟨499999, by decide, by decide⟩
  · exact ⟨500001, by decide, by decide⟩
  · exact ⟨500000, by decide, by decide⟩
  · exact ⟨499999, by decide, by decide⟩
  · exact ⟨499999, by decide, by decide⟩
  · exact ⟨500001, by decide, by decide⟩
  · exact ⟨500000, by decide, by decide⟩

/-- C9 (witness for the amended theorem): the instance `C = 250000000000`,
`x1 = 1000`. -/
theorem c9_amended_witness :
    ∃ x, maximize (concaveObj 250000000000) (gen_guess 1 1000) 1 ratXrtol 1 100 =
      some x ∧ |x - 500000| ≤ 1 :=
  c9_amended 250000000000 1000 (by decide) (by decide)

/- ------------------------------------------------------------------ -/
/- C5: the profit pre-check of evaluate_arb                            -/
/- ------------------------------------------------------------------ -/

/-- A concrete probe scenario: an 18-decimals input token and quotes whose
round trip nets `+1` at amount `10^12` and a loss everywhere else. -/
def c5_token : Token := { address := "ETH", decimals := 18 }

def c5_quote1 : Int → Int := fun x => -x

def c5_quote2 : Int → Int := fun y => if y = 10 ^ 12 then -(y + 1) else 0

/-- C5 (counterexample): `evaluate_arb` probes at
`max(unit // 10^4, 1000) = 10^14` — not at `max(unit/10^6, 1000) = 10^12`
as claimed.  With the quotes above the net result at the claimed probe
amount `10^12` is `1 > 0`, yet the evaluation raises the "not profitable"
failure (because the net at the actual probe amount `10^14` is `-10^14`):
the claimed iff fails at this input. -/
theorem c5_counterexample :
    evaluate_arb c5_quote1 c5_quote2 c5_token "ETH" "USDC" 0 0 =
      .notProfitable (-(10 ^ 14)) ∧
    (arbitrage c5_quote1 c5_quote2 (max (floor_div c5_token.unit (10 ^ 6)) 1000)).1 =
      1 := by
  constructor
  · decide
  · decide

/-- C5 (amended): the probe amount is `max(tokenUnit // 10^4, 1000)` base
units (`0.0001` tokens), and `evaluate_arb` raises the typed "not
profitable" failure — carrying the probed net amount, before the maximizing
search can run (the outcome is independent of the search fuel) — if and
only if the net result at that probe amount is `≤ 0`. -/
theorem c5_amended (quote1 quote2 : Int → Int) (token_in : Token)
    (eth usdc : String) (gas_price : Int) (fuel : Nat) :
    evaluate_arb quote1 quote2 token_in eth usdc gas_price fuel =
      .notProfitable
        (arbitrage quote1 quote2 (max (floor_div token_in.unit (10 ^ 4)) 1000)).1 ↔
    (arbitrage quote1 quote2 (max (floor_div token_in.unit (10 ^ 4)) 1000)).1 ≤ 0 := by
  unfold evaluate_arb
  constructor
  · intro h
    by_contra hpos
    rw [if_neg hpos] at h
    dsimp only [arbitrage] at h
    split at h
    · exact EvalOutcome.noConfusion h
    · split at h
      · split at h
        · exact EvalOutcome.noConfusion h
        · exact EvalOutcome.noConfusion h
      · split at h
        · split at h
          · exact EvalOutcome.noConfusion h
          · exact EvalOutcome.noConfusion h
        · exact EvalOutcome.noConfusion h
  · intro h
    rw [if_pos h]

/- ------------------------------------------------------------------ -/
/- C4: the 100-step bound of the swap loop                             -/
/- ------------------------------------------------------------------ -/

/-- A single-tier, zero-fee pool (`sqrt_gamma = 10^5`) at the tick-0 price
with ticks linked one apart downwards: every swap step crosses exactly one
tick, so a 103-tick-wide exact-in swap takes 103 loop iterations. -/
def c4_heap : Heap :=
  { ints := [[10 ^ 9], [2 ^ 72], [10 ^ 5], [-1], [776363]], bools := [[true]] }

def c4_pool : Pool :=
  { liquiditys := 0, sqrt_prices := 1, sqrt_gammas := 2,
    next_ticks_below := 3, next_ticks_above := 4,
    get_tick_data := (fun _ t => some (0, t - 1, t + 1)), size := 1 }

/-- C4 (counterexample): on the pool above, the integer `Pool.swap` runs for
103 loop iterations — more than 100 — and returns normally (`some`), raising
no error: the integer variant has no step-count check. -/
theorem c4_counterexample :
    (Pool.swap c4_heap c4_pool true 5149897 0 200).map
      (fun r => r.1.res_step_count) = some 103 ∧ 103 > 100 := by
  constructor
  · decide
  · decide

/-- C4 (amended): the integer `Pool.swap` loop has no step bound: there are
configurations on which it iterates more than 100 times and returns
normally with the step count in its result (the 100-step `Too many steps`
abort exists only in the float variant's source). -/
theorem c4_amended :
    ∃ pr : SwapRes × Heap,
      Pool.swap c4_heap c4_pool true 5149897 0 200 = some pr ∧
      pr.1.res_step_count > 100 := by
  have h : (Pool.swap c4_heap c4_pool true 5149897 0 200).map
      (fun r => r.1.res_step_count) = some 103 := by decide
  rcases e : Pool.swap c4_heap c4_pool true 5149897 0 200 with _ | pr
  · rw [e] at h
    exact Option.noConfusion h
  · refine ⟨pr, rfl, ?_⟩
    rw [e, Option.map_some'] at h
    have : pr.1.res_step_count = 103 := Option.some.inj h
    omega

/- ------------------------------------------------------------------ -/
/- Heap frame lemmas: reads through references untouched by a write    -/
/- ------------------------------------------------------------------ -/

lemma Heap.readI_writeI_ne (h : Heap) {r q : Nat} (v : List Int) (hne : q ≠ r) :
    (h.writeI r v).readI q = h.readI q := by
  simp only [Heap.writeI, Heap.readI, List.getD_eq_getElem?_getD,
    List.getElem?_set_ne (Ne.symm hne)]

lemma Heap.readI_setIElem_ne (h : Heap) {r q : Nat} (i : Nat) (v : Int) (hne : q ≠ r) :
    (h.setIElem r i v).readI q = h.readI q :=
  Heap.readI_writeI_ne h _ hne

lemma Heap.readI_setBElem (h : Heap) (r q i : Nat) (v : Bool) :
    (h.setBElem r i v).readI q = h.readI q := rfl

lemma Heap.readB_writeI (h : Heap) (r q : Nat) (v : List Int) :
    (h.writeI r v).readB q = h.readB q := rfl

lemma Heap.readB_setIElem (h : Heap) (r q i : Nat) (v : Int) :
    (h.setIElem r i v).readB q = h.readB q := rfl

lemma Heap.readB_setBElem_ne (h : Heap) {r q : Nat} (i : Nat) (v : Bool) (hne : q ≠ r) :
    (h.setBElem r i v).readB q = h.readB q := by
  simp only [Heap.setBElem, Heap.readB, List.getD_eq_getElem?_getD,
    List.getElem?_set_ne (Ne.symm hne)]

lemma Heap.readI_allocI (h : Heap) (v : List Int) {q : Nat} (hq : q < h.ints.length) :
    (h.allocI v).2.readI q = h.readI q := by
  simp only [Heap.allocI, Heap.readI, List.getD_eq_getElem?_getD,
    List.getElem?_append_left hq]

lemma Heap.readB_allocI (h : Heap) (v : List Int) (q : Nat) :
    (h.allocI v).2.readB q = h.readB q := rfl

lemma Heap.readI_allocB (h : Heap) (v : List Bool) (q : Nat) :
    (h.allocB v).2.readI q = h.readI q := rfl

lemma Heap.readB_allocB (h : Heap) (v : List Bool) {q : Nat} (hq : q < h.bools.length) :
    (h.allocB v).2.readB q = h.readB q := by
  simp only [Heap.allocB, Heap.readB, List.getD_eq_getElem?_getD,
    List.getElem?_append_left hq]

lemma Heap.ints_length_setBElem (h : Heap) (r i : Nat) (v : Bool) :
    (h.setBElem r i v).ints.length = h.ints.length := rfl

lemma Heap.bools_length_writeI (h : Heap) (r : Nat) (v : List Int) :
    (h.writeI r v).bools.length = h.bools.length := rfl

/-- Frame property of one tick-crossing step: it writes only the pool's own
integer arrays and the swap-local `tier_choices` copy. -/
lemma crossStep_frame (p : Pool) (is_token0_in : Bool) (next_ticks tc : Nat)
    (steps : List StepResult) (hh h1 : Heap) (i : Nat)
    (hstep : crossStep p is_token0_in next_ticks tc steps hh i = some h1) :
    (∀ q, q ≠ p.liquiditys → q ≠ p.next_ticks_below → q ≠ p.next_ticks_above →
      h1.readI q = hh.readI q) ∧
    (∀ q, q ≠ tc → h1.readB q = hh.readB q) := by
  unfold crossStep at hstep
  by_cases hc : (steps.getD i ⟨false, false, 0, 0, 0, 0⟩).is_cross
  · rw [if_pos hc] at hstep
    by_cases hs : (hh.readI next_ticks).getD i 0 = MIN_TICK ∨
        (hh.readI next_ticks).getD i 0 = MAX_TICK
    · rw [if_pos hs] at hstep
      cases hstep
      exact ⟨fun q _ _ _ => rfl, fun q hq => Heap.readB_setBElem_ne _ _ _ hq⟩
    · rw [if_neg hs] at hstep
      rcases hdata : p.get_tick_data i ((hh.readI next_ticks).getD i 0) with _ | ⟨ld, nb, na⟩
      · rw [hdata] at hstep
        exact Option.noConfusion hstep
      · rw [hdata] at hstep
        dsimp only at hstep
        by_cases hdir : is_token0_in
        · rw [if_pos hdir] at hstep
          cases hstep
          refine ⟨fun q hq1 hq2 hq3 => ?_, fun q _ => rfl⟩
          rw [Heap.readI_setIElem_ne _ _ _ hq3, Heap.readI_setIElem_ne _ _ _ hq2,
            Heap.readI_setIElem_ne _ _ _ hq1]
        · rw [if_neg hdir] at hstep
          cases hstep
          refine ⟨fun q hq1 hq2 hq3 => ?_, fun q _ => rfl⟩
          rw [Heap.readI_setIElem_ne _ _ _ hq2, Heap.readI_setIElem_ne _ _ _ hq3,
            Heap.readI_setIElem_ne _ _ _ hq1]
  · rw [if_neg hc] at hstep
    cases hstep
    exact ⟨fun _ _ _ _ => rfl, fun _ _ => rfl⟩

/-- Frame properties survive an `Option`-valued fold over a state. -/
lemma foldlM_heap_frame {σ β : Type} (f : σ → β → Option σ)
    (P : σ → σ → Prop)
    (hP1 : ∀ h, P h h)
    (hP2 : ∀ h1 h2 h3, P h1 h2 → P h2 h3 → P h1 h3)
    (hf : ∀ hh x hh', f hh x = some hh' → P hh hh') :
    ∀ (l : List β) (h h' : σ), l.foldlM f h = some h' → P h h' := by
  intro l
  induction l with
  | nil =>
    intro h h' he
    cases he
    exact hP1 h
  | cons x rest ih =>
    intro h h' he
    rw [List.foldlM_cons] at he
    rcases hx : f h x with _ | h1
    · rw [hx] at he
      exact Option.noConfusion he
    · rw [hx] at he
      exact hP2 _ _ _ (hf h x h1 hx) (ih h1 h' he)

/-- Frame property of the whole tick-crossing pass. -/
lemma crossPass_frame (p : Pool) (is_token0_in : Bool) (next_ticks tc : Nat)
    (steps : List StepResult) (h h' : Heap)
    (hfold : crossPass p is_token0_in next_ticks tc steps h = some h') :
    (∀ q, q ≠ p.liquiditys → q ≠ p.next_ticks_below → q ≠ p.next_ticks_above →
      h'.readI q = h.readI q) ∧
    (∀ q, q ≠ tc → h'.readB q = h.readB q) := by
  refine foldlM_heap_frame _
    (fun (ha hb : Heap) =>
      (∀ q, q ≠ p.liquiditys → q ≠ p.next_ticks_below → q ≠ p.next_ticks_above →
        hb.readI q = ha.readI q) ∧
      (∀ q, q ≠ tc → hb.readB q = ha.readB q))
    (fun _ => ⟨fun _ _ _ _ => rfl, fun _ _ => rfl⟩)
    (fun h1 h2 h3 p12 p23 =>
      ⟨fun q hq1 hq2 hq3 => (p23.1 q hq1 hq2 hq3).trans (p12.1 q hq1 hq2 hq3),
       fun q hq => (p23.2 q hq).trans (p12.2 q hq)⟩)
    (fun hh x hh' hx => crossStep_frame p is_token0_in next_ticks tc steps hh hh' x hx)
    (List.range p.size) h h' hfold

/-- Frame property of the swap loop: across any number of iterations, the
only integer arrays written are the pool's four mutable arrays, and the only
boolean array written is the swap-local `tier_choices` copy `tc`. -/
lemma swapLoop_frame (p : Pool) (is0 : Bool) (amt : Int) (tc : Nat) :
    ∀ (fuel : Nat) (h : Heap) (acc : Accum) (res : SwapRes) (h' : Heap),
      swapLoop p is0 amt tc fuel h acc = some (res, h') →
      (∀ q, q ≠ p.sqrt_prices → q ≠ p.liquiditys → q ≠ p.next_ticks_below →
        q ≠ p.next_ticks_above → h'.readI q = h.readI q) ∧
      (∀ q, q ≠ tc → h'.readB q = h.readB q) := by
  intro fuel
  induction fuel with
  | zero =>
    intro h acc res h' hl
    exact Option.noConfusion hl
  | succ n ih =>
    intro h acc res h' hl
    rw [swapLoop] at hl
    dsimp only at hl
    split at hl
    · exact Option.noConfusion hl
    · split at hl
      · exact Option.noConfusion hl
      · rename_i calcRes amts enabled hcalc hx h2 hcross
        rcases (ite_eq_iff.mp hl) with ⟨hstop, hval⟩ | ⟨hstop, hval⟩
        · have hh2 : h2 = h' := congrArg Prod.snd (Option.some.inj hval)
          subst hh2
          have hframe12 := crossPass_frame _ _ _ _ _ _ _ hcross
          refine ⟨fun q hq1 hq2 hq3 hq4 => ?_, fun q hq => ?_⟩
          · rw [hframe12.1 q hq2 hq3 hq4, Heap.readI_writeI_ne _ _ hq1]
          · rw [hframe12.2 q hq]
            rfl
        · have hrest := ih _ _ _ _ hval
          have hframe12 := crossPass_frame _ _ _ _ _ _ _ hcross
          refine ⟨fun q hq1 hq2 hq3 hq4 => ?_, fun q hq => ?_⟩
          · rw [hrest.1 q hq1 hq2 hq3 hq4, hframe12.1 q hq2 hq3 hq4,
              Heap.readI_writeI_ne _ _ hq1]
          · rw [hrest.2 q hq, hframe12.2 q hq]
            rfl

lemma Heap.ints_length_allocI (h : Heap) (v : List Int) :
    (h.allocI v).2.ints.length = h.ints.length + 1 := by
  simp [Heap.allocI]

lemma Heap.bools_length_allocI (h : Heap) (v : List Int) :
    (h.allocI v).2.bools.length = h.bools.length := rfl

/-- C2: after any integer `Pool.quote` that returns, the four mutable arrays
of the pool are bit-identical to their pre-call values — the enclosed swap
mutates only the internally cloned copies. -/
theorem c2_quote_preserves_pool (h : Heap) (p : Pool) (is0 : Bool) (amt : Int)
    (tcRef fuel : Nat)
    (hl : p.liquiditys < h.ints.length) (hs : p.sqrt_prices < h.ints.length)
    (hb : p.next_ticks_below < h.ints.length) (ha : p.next_ticks_above < h.ints.length)
    (res : SwapRes) (h' : Heap)
    (hq : Pool.quote h p is0 amt tcRef fuel = some (res, h')) :
    h'.readI p.liquiditys = h.readI p.liquiditys ∧
    h'.readI p.sqrt_prices = h.readI p.sqrt_prices ∧
    h'.readI p.next_ticks_below = h.readI p.next_ticks_below ∧
    h'.readI p.next_ticks_above = h.readI p.next_ticks_above := by
  unfold Pool.quote Pool.swap at hq
  dsimp only [Heap.allocI, Heap.allocB] at hq
  have hframe := (swapLoop_frame _ _ _ _ _ _ _ _ _ hq)
  have hlen : h.ints.length + 4 = (h.ints ++ [h.readI p.liquiditys] ++ [h.readI p.sqrt_prices]
      ++ [h.readI p.next_ticks_below] ++ [h.readI p.next_ticks_above]).length := by
    simp
  refine ⟨?_, ?_, ?_, ?_⟩ <;>
    [ (have hfr := hframe.1 p.liquiditys (by simp; omega) (by simp; omega)
        (by simp; omega) (by simp; omega));
      (have hfr := hframe.1 p.sqrt_prices (by simp; omega) (by simp; omega)
        (by simp; omega) (by simp; omega));
      (have hfr := hframe.1 p.next_ticks_below (by simp; omega) (by simp; omega)
        (by simp; omega) (by simp; omega));
      (have hfr := hframe.1 p.next_ticks_above (by simp; omega) (by simp; omega)
        (by simp; omega) (by simp; omega)) ] <;>
  · rw [hfr]
    simp only [Heap.readI, List.getD_eq_getElem?_getD, List.append_assoc]
    rw [List.getElem?_append_left (by omega)]

/-- C2 (witness): a concrete single-tier quote; the pool's arrays read back
unchanged. -/
theorem c2_quote_preserves_pool_witness :
    ∃ rh : SwapRes × Heap,
      Pool.quote c4_heap c4_pool true 49000 0 9 = some rh ∧
      rh.2.readI c4_pool.liquiditys = c4_heap.readI c4_pool.liquiditys ∧
      rh.2.readI c4_pool.sqrt_prices = c4_heap.readI c4_pool.sqrt_prices ∧
      rh.2.readI c4_pool.next_ticks_below = c4_heap.readI c4_pool.next_ticks_below ∧
      rh.2.readI c4_pool.next_ticks_above = c4_heap.readI c4_pool.next_ticks_above := by
  have hsome : (Pool.quote c4_heap c4_pool true 49000 0 9).isSome = true := by decide
  rcases e : Pool.quote c4_heap c4_pool true 49000 0 9 with _ | rh
  · rw [e] at hsome
    exact Bool.noConfusion hsome
  · exact ⟨rh, rfl, c2_quote_preserves_pool c4_heap c4_pool true 49000 0 9
      (by decide) (by decide) (by decide) (by decide) rh.1 rh.2 (by rw [e])⟩

/-- The caller's `tier_choices` array survives an integer `Pool.swap`: the
engine copies it on entry and mutates only the copy. -/
lemma swap_preserves_tier_choices (h : Heap) (p : Pool) (is0 : Bool) (amt : Int)
    (tcRef fuel : Nat) (hv : tcRef < h.bools.length)
    (res : SwapRes) (h' : Heap)
    (hq : Pool.swap h p is0 amt tcRef fuel = some (res, h')) :
    h'.readB tcRef = h.readB tcRef := by
  unfold Pool.swap at hq
  dsimp only [Heap.allocB] at hq
  have hframe := (swapLoop_frame _ _ _ _ _ _ _ _ _ hq).2 tcRef (by omega)
  rw [hframe]
  simp only [Heap.readB, List.getD_eq_getElem?_getD]
  rw [List.getElem?_append_left (by omega)]

/-- The caller's `tier_choices` array survives an integer `Pool.quote`. -/
lemma quote_preserves_tier_choices (h : Heap) (p : Pool) (is0 : Bool) (amt : Int)
    (tcRef fuel : Nat) (hv : tcRef < h.bools.length)
    (res : SwapRes) (h' : Heap)
    (hq : Pool.quote h p is0 amt tcRef fuel = some (res, h')) :
    h'.readB tcRef = h.readB tcRef := by
  unfold Pool.quote at hq
  dsimp only [Heap.allocI] at hq
  exact swap_preserves_tier_choices
    { ints := h.ints ++ [h.readI p.liquiditys] ++ [h.readI p.sqrt_prices]
        ++ [h.readI p.next_ticks_below] ++ [h.readI p.next_ticks_above],
      bools := h.bools } _ is0 amt tcRef fuel hv _ _ hq

/- ------------------------------------------------------------------ -/
/- muffin_arb/impl/float/pool_jitclass.py — the float-precision Pool.
   float64 arithmetic is not embeddable exactly, so the numeric
   operations are abstracted into a record and every theorem about this
   shape is quantified over ALL implementations of the record; the
   control flow around `tier_choices` (the subject of the claims) is
   embedded faithfully.                                                -/
/- ------------------------------------------------------------------ -/

/-- The abstracted numeric operations of the float pool: the two allocation
solvers, the step executor, arithmetic, and the comparison predicates of the
stopping criteria (`> 0`, `<= 100`, `>= -100`, float `==`, the `1e-7`
stagnation test, and the int64 cast of tick data). -/
structure FloatOps (α : Type) where
  calcIn : Bool → α → List Bool → List α → List α → List α → (List α × List Bool)
  calcOut : Bool → α → List Bool → List α → List α → List α → (List α × List Bool)
  step : Bool → Bool → α → α → α → α → Int → (Bool × Bool × α × α × α × α)
  add : α → α → α
  sub : α → α → α
  zero : α
  sum : List α → α
  feeGrowth : α → α → α
  isPos : α → Bool
  remainLeTol : α → Bool
  remainGeNegTol : α → Bool
  eq : α → α → Bool
  remainPctSmall : α → α → Bool
  castTick : α → Int

/-- The float `Pool`: its numeric arrays by value (they are not shared with
the caller in any way the claims mention), the tick dict as a lookup
function, and `size`. -/
structure FloatPool (α : Type) where
  liquiditys : List α
  sqrt_prices : List α
  sqrt_gammas : List α
  next_ticks_below : List Int
  next_ticks_above : List Int
  ticks : Nat → Int → Option (α × α × α)
  size : Nat

structure FloatAccum (α : Type) where
  amt_a : α
  amt_b : α
  fee_amt : α
  amts_a : List α
  amts_b : List α
  fee_amts : List α
  fee_growths : List α
  step_count : Nat
  last_step_amt_a : Option α

structure FloatRes (α : Type) where
  res_amt_a : α
  res_amt_b : α
  res_fee_amt : α
  res_amts_a : List α
  res_amts_b : List α
  res_fee_amts : List α
  res_fee_growths : List α
  res_step_count : Nat
  sqrt_prices : List α
  liquiditys : List α
  next_ticks_below : List Int
  next_ticks_above : List Int

/-- One index of the float tick-crossing pass (mirrors `crossStep`; the
liquidity update and the int64 casts of the tick tuple go through the
abstract operations). -/
def floatCrossStep {α : Type} (ops : FloatOps α) (is_token0_in : Bool) (tc : Nat)
    (steps : List (Bool × Bool × α × α × α × α)) (st : FloatPool α × Heap) (i : Nat) :
    Option (FloatPool α × Heap) :=
  let fp := st.1
  let hh := st.2
  let next_ticks := if is_token0_in then fp.next_ticks_below else fp.next_ticks_above
  if (steps.getD i (false, false, ops.zero, ops.zero, ops.zero, ops.zero)).2.1 then
    if next_ticks.getD i 0 = MIN_TICK ∨ next_ticks.getD i 0 = MAX_TICK then
      some (fp, hh.setBElem tc i false)
    else
      match fp.ticks i (next_ticks.getD i 0) with
      | none => none
      | some (liquidity_delta, next_below, next_above) =>
        if is_token0_in then
          some ({ fp with
              liquiditys := fp.liquiditys.set i
                (ops.sub (fp.liquiditys.getD i ops.zero) liquidity_delta),
              next_ticks_below := fp.next_ticks_below.set i (ops.castTick next_below),
              next_ticks_above := fp.next_ticks_above.set i (next_ticks.getD i 0) }, hh)
        else
          some ({ fp with
              liquiditys := fp.liquiditys.set i
                (ops.add (fp.liquiditys.getD i ops.zero) liquidity_delta),
              next_ticks_above := fp.next_ticks_above.set i (ops.castTick next_above),
              next_ticks_below := fp.next_ticks_below.set i (next_ticks.getD i 0) }, hh)
  else some st

/-- The `while True` loop of the float `Pool.swap`, with the two additional
exits of the float source: the stagnation break (identical step amount while
the remaining fraction is below `1e-7`) and the fatal
`Too many steps` raise once the step count exceeds 100 (modelled as
`none`). -/
def floatSwapLoop {α : Type} (ops : FloatOps α) (is0 : Bool) (amount_desired : α)
    (tc : Nat) :
    Nat → FloatPool α → Heap → FloatAccum α → Option (FloatRes α × FloatPool α × Heap)
  | 0, _, _, _ => none
  | fuel + 1, fp, h, acc =>
    let is_exact_in := ops.isPos amount_desired
    let is_token0_in := is0 = ops.isPos amount_desired
    let next_ticks := if is_token0_in then fp.next_ticks_below else fp.next_ticks_above
    let tcs := h.readB tc
    let pr :=
      if is_exact_in then
        ops.calcIn is0 (ops.sub amount_desired acc.amt_a) tcs fp.sqrt_gammas
          fp.sqrt_prices fp.liquiditys
      else
        ops.calcOut is0 (ops.sub amount_desired acc.amt_a) tcs fp.sqrt_gammas
          fp.sqrt_prices fp.liquiditys
    let steps := (List.range fp.size).map (fun i =>
      if pr.2.getD i false then
        ops.step is0 is_exact_in (pr.1.getD i ops.zero) (fp.sqrt_gammas.getD i ops.zero)
          (fp.sqrt_prices.getD i ops.zero) (fp.liquiditys.getD i ops.zero)
          (next_ticks.getD i 0)
      else (false, false, ops.zero, ops.zero, ops.zero, ops.zero))
    let step_amt_a := ops.sum (steps.map (fun s => s.2.2.1))
    let acc' : FloatAccum α := {
      amt_a := ops.add acc.amt_a step_amt_a
      amt_b := ops.add acc.amt_b (ops.sum (steps.map (fun s => s.2.2.2.1)))
      fee_amt := ops.add acc.fee_amt (ops.sum (steps.map (fun s => s.2.2.2.2.2)))
      amts_a := List.zipWith ops.add acc.amts_a (steps.map (fun s => s.2.2.1))
      amts_b := List.zipWith ops.add acc.amts_b (steps.map (fun s => s.2.2.2.1))
      fee_amts := List.zipWith ops.add acc.fee_amts (steps.map (fun s => s.2.2.2.2.2))
      fee_growths := List.zipWith ops.add acc.fee_growths
        (List.zipWith ops.feeGrowth (steps.map (fun s => s.2.2.2.2.2)) fp.liquiditys)
      step_count := acc.step_count + 1
      last_step_amt_a := acc.last_step_amt_a }
    let fp1 := { fp with sqrt_prices :=
      (List.zipWith
        (fun (s : Bool × Bool × α × α × α × α) old => if s.1 then s.2.2.2.2.1 else old)
        steps fp.sqrt_prices) }
    match (List.range fp.size).foldlM (floatCrossStep ops is_token0_in tc steps) (fp1, h) with
    | none => none
    | some (fp2, h2) =>
      let done : Bool := !((h2.readB tc).any id) ||
        (if is_exact_in then ops.remainLeTol (ops.sub amount_desired acc'.amt_a)
         else ops.remainGeNegTol (ops.sub amount_desired acc'.amt_a))
      let stagnant : Bool := (match acc.last_step_amt_a with
          | some v => ops.eq step_amt_a v
          | none => false) &&
        (ops.eq step_amt_a ops.zero ||
         ops.remainPctSmall (ops.sub amount_desired acc'.amt_a) amount_desired)
      if done || stagnant then
        some ({ res_amt_a := acc'.amt_a, res_amt_b := acc'.amt_b,
                res_fee_amt := acc'.fee_amt, res_amts_a := acc'.amts_a,
                res_amts_b := acc'.amts_b, res_fee_amts := acc'.fee_amts,
                res_fee_growths := acc'.fee_growths,
                res_step_count := acc'.step_count,
                sqrt_prices := fp2.sqrt_prices, liquiditys := fp2.liquiditys,
                next_ticks_below := fp2.next_ticks_below,
                next_ticks_above := fp2.next_ticks_above }, fp2, h2)
      else if acc'.step_count > 100 then
        none
      else
        floatSwapLoop ops is0 amount_desired tc fuel fp2 h2
          { acc' with last_step_amt_a := some step_amt_a }

/-- The float `Pool.swap`: copies the caller's `tier_choices` array, then
runs the float swap loop on the copy. -/
def FloatPool.swap {α : Type} (ops : FloatOps α) (h : Heap) (fp : FloatPool α)
    (is0 : Bool) (amount_desired : α) (tier_choices : Nat) (fuel : Nat) :
    Option (FloatRes α × FloatPool α × Heap) :=
  let (tc, h1) := h.allocB (h.readB tier_choices)
  floatSwapLoop ops is0 amount_desired tc fuel fp h1
    { amt_a := ops.zero, amt_b := ops.zero, fee_amt := ops.zero,
      amts_a := List.replicate fp.size ops.zero,
      amts_b := List.replicate fp.size ops.zero,
      fee_amts := List.replicate fp.size ops.zero,
      fee_growths := List.replicate fp.size ops.zero,
      step_count := 0, last_step_amt_a := none }

/-- Frame property of one float tick-crossing step: the only boolean-array
write is the disable of the swap-local `tier_choices` copy. -/
lemma floatCrossStep_frame {α : Type} (ops : FloatOps α) (is_token0_in : Bool)
    (tc : Nat) (steps : List (Bool × Bool × α × α × α × α))
    (st st' : FloatPool α × Heap) (i : Nat)
    (hstep : floatCrossStep ops is_token0_in tc steps st i = some st') :
    ∀ q, q ≠ tc → st'.2.readB q = st.2.readB q := by
  unfold floatCrossStep at hstep
  by_cases hc : (steps.getD i (false, false, ops.zero, ops.zero, ops.zero, ops.zero)).2.1
  · rw [if_pos hc] at hstep
    by_cases hs : ((if is_token0_in then st.1.next_ticks_below else st.1.next_ticks_above).getD i 0 = MIN_TICK ∨
        (if is_token0_in then st.1.next_ticks_below else st.1.next_ticks_above).getD i 0 = MAX_TICK)
    · rw [if_pos hs] at hstep
      cases hstep
      exact fun q hq => Heap.readB_setBElem_ne _ _ _ hq
    · rw [if_neg hs] at hstep
      rcases hdata : st.1.ticks i
          ((if is_token0_in then st.1.next_ticks_below else st.1.next_ticks_above).getD i 0)
        with _ | ⟨ld, nb, na⟩
      · rw [hdata] at hstep
        exact Option.noConfusion hstep
      · rw [hdata] at hstep
        dsimp only at hstep
        by_cases hdir : is_token0_in <;>
          [rw [if_pos hdir] at hstep; rw [if_neg hdir] at hstep] <;>
          cases hstep <;> exact fun q _ => rfl
  · rw [if_neg hc] at hstep
    cases hstep
    exact fun _ _ => rfl

/-- Frame property of the float swap loop: the only boolean array it writes
is the swap-local `tier_choices` copy. -/
lemma floatSwapLoop_frame {α : Type} (ops : FloatOps α) (is0 : Bool) (amt : α) (tc : Nat) :
    ∀ (fuel : Nat) (fp : FloatPool α) (h : Heap) (acc : FloatAccum α)
      (res : FloatRes α) (fp' : FloatPool α) (h' : Heap),
      floatSwapLoop ops is0 amt tc fuel fp h acc = some (res, fp', h') →
      ∀ q, q ≠ tc → h'.readB q = h.readB q := by
  intro fuel
  induction fuel with
  | zero =>
    intro fp h acc res fp' h' hl
    exact Option.noConfusion hl
  | succ n ih =>
    intro fp h acc res fp' h' hl
    rw [floatSwapLoop] at hl
    dsimp only at hl
    split at hl
    · exact Option.noConfusion hl
    · rename_i st fp2 h2 hcross
      have hframe12 : ∀ q, q ≠ tc → h2.readB q = h.readB q :=
        foldlM_heap_frame _
          (fun (a b : FloatPool α × Heap) => ∀ q, q ≠ tc → b.2.readB q = a.2.readB q)
          (fun _ _ _ => rfl)
          (fun s1 s2 s3 p12 p23 q hq => (p23 q hq).trans (p12 q hq))
          (fun ss x ss' hx => floatCrossStep_frame ops _ tc _ ss ss' x hx)
          (List.range fp.size) _ _ hcross
      rcases (ite_eq_iff.mp hl) with ⟨hstop, hval⟩ | ⟨hstop, hval⟩
      · have hh2 : h2 = h' := congrArg (fun t => t.2.2) (Option.some.inj hval)
        intro q hq
        rw [← hh2, hframe12 q hq]
      · rcases (ite_eq_iff.mp hval) with ⟨hbig, hnone⟩ | ⟨hbig, hrec⟩
        · exact Option.noConfusion hnone
        · intro q hq
          rw [ih _ _ _ _ _ _ hrec q hq, hframe12 q hq]

/-- The caller's `tier_choices` array survives a float `Pool.swap`, whatever
the float arithmetic does. -/
lemma floatSwap_preserves_tier_choices {α : Type} (ops : FloatOps α) (h : Heap)
    (fp : FloatPool α) (is0 : Bool) (amt : α) (tcRef fuel : Nat)
    (hv : tcRef < h.bools.length)
    (res : FloatRes α) (fp' : FloatPool α) (h' : Heap)
    (hq : FloatPool.swap ops h fp is0 amt tcRef fuel = some (res, fp', h')) :
    h'.readB tcRef = h.readB tcRef := by
  unfold FloatPool.swap at hq
  dsimp only [Heap.allocB] at hq
  have hframe := floatSwapLoop_frame ops is0 amt _ _ _ _ _ _ _ _ hq tcRef (by omega)
  rw [hframe]
  simp only [Heap.readB, List.getD_eq_getElem?_getD]
  rw [List.getElem?_append_left (by omega)]

/-- C10: on every call to `swap` or `quote` of the integer Pool, and on
every call to `swap` of the float-shape Pool under ANY implementation of the
float arithmetic, the caller-supplied `tier_choices` array is unchanged
afterwards: the engine copies it on entry and the in-loop sentinel-tick
disables write only the copy. -/
theorem c10_tier_choices_unchanged :
    (∀ (h : Heap) (p : Pool) (is0 : Bool) (amt : Int) (tcRef fuel : Nat),
      tcRef < h.bools.length →
      ∀ (res : SwapRes) (h' : Heap),
        Pool.swap h p is0 amt tcRef fuel = some (res, h') →
        h'.readB tcRef = h.readB tcRef) ∧
    (∀ (h : Heap) (p : Pool) (is0 : Bool) (amt : Int) (tcRef fuel : Nat),
      tcRef < h.bools.length →
      ∀ (res : SwapRes) (h' : Heap),
        Pool.quote h p is0 amt tcRef fuel = some (res, h') →
        h'.readB tcRef = h.readB tcRef) ∧
    (∀ (α : Type) (ops : FloatOps α) (h : Heap) (fp : FloatPool α) (is0 : Bool)
      (amt : α) (tcRef fuel : Nat),
      tcRef < h.bools.length →
      ∀ (res : FloatRes α) (fp' : FloatPool α) (h' : Heap),
        FloatPool.swap ops h fp is0 amt tcRef fuel = some (res, fp', h') →
        h'.readB tcRef = h.readB tcRef) :=
  ⟨fun h p is0 amt tcRef fuel hv res h' hq =>
      swap_preserves_tier_choices h p is0 amt tcRef fuel hv res h' hq,
   fun h p is0 amt tcRef fuel hv res h' hq =>
      quote_preserves_tier_choices h p is0 amt tcRef fuel hv res h' hq,
   fun _ ops h fp is0 amt tcRef fuel hv res fp' h' hq =>
      floatSwap_preserves_tier_choices ops h fp is0 amt tcRef fuel hv res fp' h' hq⟩

/-- A trivial concrete instantiation of the float operations over `Int`,
used only to witness the float conjunct of C10 on a concrete call. -/
def intFloatOps : FloatOps Int :=
  { calcIn := fun _ _ tcs _ _ liqs => (liqs.map (fun _ => 0), tcs),
    calcOut := fun _ _ tcs _ _ liqs => (liqs.map (fun _ => 0), tcs),
    step := fun _ _ a _ p _ _ => (true, false, a, 0, p, 0),
    add := (· + ·), sub := (· - ·), zero := 0, sum := List.sum,
    feeGrowth := fun f _ => f, isPos := fun a => a > 0,
    remainLeTol := fun a => a ≤ 100, remainGeNegTol := fun a => a ≥ -100,
    eq := fun a b => a = b, remainPctSmall := fun _ _ => false,
    castTick := id }

def c10_float_pool : FloatPool Int :=
  { liquiditys := [10 ^ 9], sqrt_prices := [2 ^ 72], sqrt_gammas := [10 ^ 5],
    next_ticks_below := [-1], next_ticks_above := [776363],
    ticks := fun _ _ => none, size := 1 }

/-- C10 (witness): the three conjuncts applied to concrete calls — the
integer swap and quote of the 103-step example pool, and a float-shape swap
under the trivial `Int` instantiation — all leave the caller's
`tier_choices` array `[true]` unchanged. -/
theorem c10_tier_choices_unchanged_witness :
    (∃ rh : SwapRes × Heap,
      Pool.swap c4_heap c4_pool true 5149897 0 200 = some rh ∧
      rh.2.readB 0 = c4_heap.readB 0) ∧
    (∃ rh : SwapRes × Heap,
      Pool.quote c4_heap c4_pool true 49000 0 9 = some rh ∧
      rh.2.readB 0 = c4_heap.readB 0) ∧
    (∃ rfh : FloatRes Int × FloatPool Int × Heap,
      FloatPool.swap intFloatOps c4_heap c10_float_pool true 7 0 9 = some rfh ∧
      rfh.2.2.readB 0 = c4_heap.readB 0) := by
  refine ⟨?_, ?_, ?_⟩
  · have hsome : (Pool.swap c4_heap c4_pool true 5149897 0 200).isSome = true := by decide
    rcases e : Pool.swap c4_heap c4_pool true 5149897 0 200 with _ | rh
    · rw [e] at hsome
      exact Bool.noConfusion hsome
    · exact ⟨rh, rfl, c10_tier_choices_unchanged.1 c4_heap c4_pool true 5149897 0 200
        (by decide) rh.1 rh.2 (by rw [e])⟩
  · have hsome : (Pool.quote c4_heap c4_pool true 49000 0 9).isSome = true := by decide
    rcases e : Pool.quote c4_heap c4_pool true 49000 0 9 with _ | rh
    · rw [e] at hsome
      exact Bool.noConfusion hsome
    · exact ⟨rh, rfl, c10_tier_choices_unchanged.2.1 c4_heap c4_pool true 49000 0 9
        (by decide) rh.1 rh.2 (by rw [e])⟩
  · have hsome : (FloatPool.swap intFloatOps c4_heap c10_float_pool true 7 0 9).isSome = true := by
      decide
    rcases e : FloatPool.swap intFloatOps c4_heap c10_float_pool true 7 0 9 with _ | rfh
    · rw [e] at hsome
      exact Bool.noConfusion hsome
    · exact ⟨rfh, rfl, c10_tier_choices_unchanged.2.2 Int intFloatOps c4_heap c10_float_pool
        true 7 0 9 (by decide) rfh.1 rfh.2.1 rfh.2.2 (by rw [e])⟩

/- ------------------------------------------------------------------ -/
/- C3 / C7: the reject-and-resolve allocation solver                   -/
/- ------------------------------------------------------------------ -/

lemma maskedSum_nil (xs : List Int) : maskedSum [] xs = 0 := rfl

lemma maskedSum_cons (m : Bool) (ms : List Bool) (x : Int) (xs : List Int) :
    maskedSum (m :: ms) (x :: xs) = (if m then x else 0) + maskedSum ms xs := by
  simp [maskedSum]

lemma assignMasked_nil (lsg res amts : List Int) (D N : Int) :
    assignMasked [] lsg res amts D N = [] := rfl

lemma assignMasked_cons (m : Bool) (ms : List Bool) (l : Int) (ls : List Int)
    (r : Int) (rs : List Int) (a : Int) (ams : List Int) (D N : Int) :
    assignMasked (m :: ms) (l :: ls) (r :: rs) (a :: ams) D N =
      (if m then floor_div (l * D) N - r else a) :: assignMasked ms ls rs ams D N := by
  simp [assignMasked]

lemma zeroUnmasked_cons (m : Bool) (ms : List Bool) (a : Int) (ams : List Int) :
    zeroUnmasked (m :: ms) (a :: ams) = (if m then a else 0) :: zeroUnmasked ms ams := by
  simp [zeroUnmasked]

/-- Sum bounds of one resolve pass: with `N > 0`, the masked sum of the
freshly computed amounts lies within `count` of the exact solution
(each floor division loses less than one unit), scaled by `N`. -/
lemma assign_sum_bounds (D N : Int) (hN : 0 < N) :
    ∀ (mask : List Bool) (lsg res amts : List Int),
      lsg.length = mask.length → res.length = mask.length → amts.length = mask.length →
      N * maskedSum mask (assignMasked mask lsg res amts D N) ≤
        D * maskedSum mask lsg - N * maskedSum mask res ∧
      D * maskedSum mask lsg - N * maskedSum mask res - N * (mask.count true : ℤ) ≤
        N * maskedSum mask (assignMasked mask lsg res amts D N) := by
  intro mask
  induction mask with
  | nil =>
    intro lsg res amts _ _ _
    simp [maskedSum, assignMasked]
  | cons m ms ih =>
    intro lsg res amts h1 h2 h3
    rcases lsg with _ | ⟨l, ls⟩
    · simp at h1
    rcases res with _ | ⟨r, rs⟩
    · simp at h2
    rcases amts with _ | ⟨a, ams⟩
    · simp at h3
    simp only [List.length_cons, Nat.add_right_cancel_iff] at h1 h2 h3
    have ihh := ih ls rs ams h1 h2 h3
    rw [assignMasked_cons, maskedSum_cons, maskedSum_cons, maskedSum_cons]
    rcases m with _ | _
    · constructor
      · simp only [if_neg (by simp : ¬ (false = true))]
        have := ihh.1
        norm_num [List.count_cons]
        linarith
      · simp only [if_neg (by simp : ¬ (false = true))]
        have := ihh.2
        norm_num [List.count_cons]
        linarith
    · have hup : N * floor_div (l * D) N ≤ l * D := by
        have := fdiv_mul_le (l * D) hN
        simpa [floor_div] using this
      have hlo : l * D < (floor_div (l * D) N + 1) * N := by
        have := lt_fdiv_add_one_mul (l * D) hN
        simpa [floor_div] using this
      constructor
      · simp only [if_pos rfl]
        have := ihh.1
        norm_num [List.count_cons]
        linarith
      · simp only [if_pos rfl]
        have := ihh.2
        norm_num [List.count_cons]
        nlinarith [this, hup, hlo]

lemma getD_zipWith_int (f : Int → Int → Int) :
    ∀ (xs ys : List Int) (i : Nat), i < xs.length → i < ys.length →
      (List.zipWith f xs ys).getD i 0 = f (xs.getD i 0) (ys.getD i 0) := by
  intro xs
  induction xs with
  | nil => intro ys i h1 _; simp at h1
  | cons x xs ih =>
    intro ys i h1 h2
    rcases ys with _ | ⟨y, ys⟩
    · simp at h2
    rcases i with _ | i
    · rfl
    · simp only [List.length_cons, Nat.succ_lt_succ_iff] at h1 h2
      simpa using ih ys i h1 h2

lemma maskedSum_nonneg :
    ∀ (mask : List Bool) (xs : List Int), xs.length = mask.length →
      (∀ i, i < xs.length → 0 ≤ xs.getD i 0) → 0 ≤ maskedSum mask xs := by
  intro mask
  induction mask with
  | nil => intro xs _ _; simp [maskedSum]
  | cons m ms ih =>
    intro xs hlen hpos
    rcases xs with _ | ⟨x, xs⟩
    · simp at hlen
    simp only [List.length_cons, Nat.add_right_cancel_iff] at hlen
    rw [maskedSum_cons]
    have h0 : 0 ≤ x := by
      have := hpos 0 (by simp)
      simpa using this
    have ht : 0 ≤ maskedSum ms xs :=
      ih xs hlen (fun i hi => by
        have := hpos (i + 1) (by simp; omega)
        simpa using this)
    rcases m with _ | _ <;> simp <;> linarith

lemma maskedSum_pos :
    ∀ (mask : List Bool) (xs : List Int), xs.length = mask.length →
      (∀ i, i < xs.length → 1 ≤ xs.getD i 0) →
      (∃ i, i < mask.length ∧ mask.getD i false = true) →
      1 ≤ maskedSum mask xs := by
  intro mask
  induction mask with
  | nil =>
    intro xs h1 h2 hne
    rcases hne with ⟨i, hi, _⟩
    simp at hi
  | cons m ms ih =>
    intro xs hlen hpos hne
    rcases xs with _ | ⟨x, xs⟩
    · simp at hlen
    simp only [List.length_cons, Nat.add_right_cancel_iff] at hlen
    rw [maskedSum_cons]
    have hpos_tail : ∀ i, i < xs.length → 1 ≤ xs.getD i 0 := by
      intro i hi
      have h := hpos (i + 1) (by simp; omega)
      rwa [List.getD_cons_succ] at h
    have htail_nonneg : 0 ≤ maskedSum ms xs :=
      maskedSum_nonneg ms xs hlen (fun i hi => le_trans (by norm_num) (hpos_tail i hi))
    rcases m with _ | _
    · rcases hne with ⟨i, hi, hm⟩
      rcases i with _ | i
      · simp at hm
      · simp only [List.length_cons, Nat.succ_lt_succ_iff] at hi
        rw [List.getD_cons_succ] at hm
        have := ih xs hlen hpos_tail ⟨i, hi, hm⟩
        simp only [if_neg (by simp : ¬ (false = true))]
        linarith
    · have h0 : 1 ≤ x := by
        have := hpos 0 (by simp)
        rwa [List.getD_cons_zero] at this
      rw [if_pos rfl]
      linarith

lemma masked_all_le_neg_one_sum :
    ∀ (mask : List Bool) (xs : List Int), xs.length = mask.length →
      (∀ i, i < mask.length → mask.getD i false = true → xs.getD i 0 ≤ -1) →
      maskedSum mask xs ≤ -(mask.count true : ℤ) := by
  intro mask
  induction mask with
  | nil => intro xs _ _; simp [maskedSum]
  | cons m ms ih =>
    intro xs hlen hneg
    rcases xs with _ | ⟨x, xs⟩
    · simp at hlen
    simp only [List.length_cons, Nat.add_right_cancel_iff] at hlen
    rw [maskedSum_cons]
    have ht := ih xs hlen (fun i hi hm => by
      have := hneg (i + 1) (by simp; omega) (by simpa using hm)
      simpa using this)
    rcases m with _ | _
    · simp only [if_neg (by simp : ¬ (false = true))]
      norm_num [List.count_cons]
      linarith
    · have h0 : x ≤ -1 := by
        have := hneg 0 (by simp) (by simp)
        simpa using this
      rw [if_pos rfl]
      norm_num [List.count_cons]
      linarith

lemma length_zeroUnmasked :
    ∀ (mask : List Bool) (amts : List Int), amts.length = mask.length →
      (zeroUnmasked mask amts).length = mask.length := by
  intro mask amts hlen
  simp [zeroUnmasked, hlen]

lemma length_assignMasked :
    ∀ (mask : List Bool) (lsg res amts : List Int) (D N : Int),
      lsg.length = mask.length → res.length = mask.length → amts.length = mask.length →
      (assignMasked mask lsg res amts D N).length = mask.length := by
  intro mask lsg res amts D N h1 h2 h3
  simp [assignMasked, h1, h2, h3]

lemma getD_zeroUnmasked :
    ∀ (mask : List Bool) (amts : List Int), amts.length = mask.length →
      ∀ i, i < mask.length →
        (zeroUnmasked mask amts).getD i 0 =
          if mask.getD i false then amts.getD i 0 else 0 := by
  intro mask
  induction mask with
  | nil => intro amts _ i hi; simp at hi
  | cons m ms ih =>
    intro amts hlen i hi
    rcases amts with _ | ⟨a, ams⟩
    · simp at hlen
    simp only [List.length_cons, Nat.add_right_cancel_iff] at hlen
    rw [zeroUnmasked_cons]
    rcases i with _ | i
    · simp
    · simp only [List.length_cons, Nat.succ_lt_succ_iff] at hi
      simpa using ih ams hlen i hi

lemma maskedSum_zeroUnmasked :
    ∀ (mask : List Bool) (amts : List Int), amts.length = mask.length →
      maskedSum mask (zeroUnmasked mask amts) = maskedSum mask amts := by
  intro mask
  induction mask with
  | nil => intro amts _; rfl
  | cons m ms ih =>
    intro amts hlen
    rcases amts with _ | ⟨a, ams⟩
    · simp at hlen
    simp only [List.length_cons, Nat.add_right_cancel_iff] at hlen
    rw [zeroUnmasked_cons, maskedSum_cons, maskedSum_cons, ih ams hlen]
    rcases m with _ | _ <;> simp

/-- The `np.all` exit test of the resolve loop, as an indexed statement. -/
lemma zip_all_iff (p : Int → Bool) :
    ∀ (mask : List Bool) (amts : List Int), amts.length = mask.length →
      ((List.zipWith (fun (m : Bool) (a : Int) => !m || p a) mask amts).all id = true ↔
        ∀ i, i < mask.length → mask.getD i false = true → p (amts.getD i 0) = true) := by
  intro mask
  induction mask with
  | nil => intro amts _; simp
  | cons m ms ih =>
    intro amts hlen
    rcases amts with _ | ⟨a, ams⟩
    · simp at hlen
    simp only [List.length_cons, Nat.add_right_cancel_iff] at hlen
    simp only [List.zipWith_cons_cons, List.all_cons, Bool.and_eq_true, id]
    rw [ih ams hlen]
    constructor
    · rintro ⟨hh, ht⟩ i hi hm
      rcases i with _ | i
      · rcases m with _ | _
        · simp at hm
        · simpa using (by simpa using hh)
      · simp only [List.length_cons, Nat.succ_lt_succ_iff] at hi
        rw [List.getD_cons_succ] at hm
        rw [List.getD_cons_succ]
        exact ht i hi hm
    · intro hall
      constructor
      · rcases m with _ | _
        · simp
        · have := hall 0 (by simp) (by simp)
          simpa using this
      · intro i hi hm
        have := hall (i + 1) (by simp; omega) (by simpa using hm)
        simpa using this

lemma getD_newMask (p : Int → Bool) :
    ∀ (mask : List Bool) (amts : List Int), amts.length = mask.length →
      ∀ i, i < mask.length →
        (List.zipWith (fun (m : Bool) (a : Int) => m && p a) mask amts).getD i false =
          (mask.getD i false && p (amts.getD i 0)) := by
  intro mask
  induction mask with
  | nil => intro amts _ i hi; simp at hi
  | cons m ms ih =>
    intro amts hlen i hi
    rcases amts with _ | ⟨a, ams⟩
    · simp at hlen
    simp only [List.length_cons, Nat.add_right_cancel_iff] at hlen
    rcases i with _ | i
    · simp
    · simp only [List.length_cons, Nat.succ_lt_succ_iff] at hi
      simpa using ih ams hlen i hi

lemma length_newMask (p : Int → Bool) (mask : List Bool) (amts : List Int)
    (hlen : amts.length = mask.length) :
    (List.zipWith (fun (m : Bool) (a : Int) => m && p a) mask amts).length = mask.length := by
  simp [hlen]

lemma count_newMask_lt (p : Int → Bool) :
    ∀ (mask : List Bool) (amts : List Int), amts.length = mask.length →
      ∀ i, i < mask.length → mask.getD i false = true → p (amts.getD i 0) = false →
        (List.zipWith (fun (m : Bool) (a : Int) => m && p a) mask amts).count true <
          mask.count true := by
  intro mask
  induction mask with
  | nil => intro amts _ i hi; simp at hi
  | cons m ms ih =>
    intro amts hlen i hi hm hp
    rcases amts with _ | ⟨a, ams⟩
    · simp at hlen
    simp only [List.length_cons, Nat.add_right_cancel_iff] at hlen
    have hle : ∀ (ms' : List Bool) (ams' : List Int),
        (List.zipWith (fun (m : Bool) (a : Int) => m && p a) ms' ams').count true ≤
          ms'.count true := by
      intro ms'
      induction ms' with
      | nil => intro ams'; simp
      | cons mm mms ihh =>
        intro ams'
        rcases ams' with _ | ⟨aa, aas⟩
        · simp
        simp only [List.zipWith_cons_cons, List.count_cons]
        have := ihh aas
        rcases mm with _ | _ <;> rcases hpa : p aa with _ | _ <;> simp [hpa] <;> omega
    rcases i with _ | i
    · rw [List.getD_cons_zero] at hm hp
      subst hm
      simp only [List.zipWith_cons_cons, List.count_cons, hp]
      have := hle ms ams
      simp
      omega
    · simp only [List.length_cons, Nat.succ_lt_succ_iff] at hi
      rw [List.getD_cons_succ] at hm hp
      have := ih ams hlen i hi hm hp
      simp only [List.zipWith_cons_cons, List.count_cons]
      rcases m with _ | _ <;> rcases hpa : p a with _ | _ <;> simp [hpa] <;> omega

lemma count_pos_of_nonempty :
    ∀ (mask : List Bool), (∃ i, i < mask.length ∧ mask.getD i false = true) →
      1 ≤ mask.count true := by
  intro mask
  induction mask with
  | nil => rintro ⟨i, hi, _⟩; simp at hi
  | cons m ms ih =>
    rintro ⟨i, hi, hm⟩
    rcases i with _ | i
    · rw [List.getD_cons_zero] at hm
      subst hm
      simp [List.count_cons]
    · simp only [List.length_cons, Nat.succ_lt_succ_iff] at hi
      rw [List.getD_cons_succ] at hm
      have := ih ⟨i, hi, hm⟩
      simp [List.count_cons]
      omega

/-- The masked amounts of the exact-out resolve pass (the ceiling-division
mirror of `assignMasked`; the inline `amts[mask] = ceil_div(...) - res[mask]`
of `calc_tier_amounts_out`). -/
def assignMaskedOut (mask : List Bool) (lsg res amts : List Int)
    (lambda_denom lambda_num : Int) : List Int :=
  List.zipWith (fun (m : Bool) (p : (Int × Int) × Int) =>
      if m then ceil_div (p.1.1 * lambda_denom) lambda_num - p.1.2 else p.2)
    mask ((lsg.zip res).zip amts)

lemma assignMaskedOut_cons (m : Bool) (ms : List Bool) (l : Int) (ls : List Int)
    (r : Int) (rs : List Int) (a : Int) (ams : List Int) (D N : Int) :
    assignMaskedOut (m :: ms) (l :: ls) (r :: rs) (a :: ams) D N =
      (if m then ceil_div (l * D) N - r else a) :: assignMaskedOut ms ls rs ams D N := by
  simp [assignMaskedOut]

lemma length_assignMaskedOut :
    ∀ (mask : List Bool) (lsg res amts : List Int) (D N : Int),
      lsg.length = mask.length → res.length = mask.length → amts.length = mask.length →
      (assignMaskedOut mask lsg res amts D N).length = mask.length := by
  intro mask lsg res amts D N h1 h2 h3
  simp [assignMaskedOut, h1, h2, h3]

lemma assign_sum_bounds_out (D N : Int) (hN : 0 < N) :
    ∀ (mask : List Bool) (lsg res amts : List Int),
      lsg.length = mask.length → res.length = mask.length → amts.length = mask.length →
      D * maskedSum mask lsg - N * maskedSum mask res ≤
        N * maskedSum mask (assignMaskedOut mask lsg res amts D N) ∧
      N * maskedSum mask (assignMaskedOut mask lsg res amts D N) ≤
        D * maskedSum mask lsg - N * maskedSum mask res + N * (mask.count true : ℤ) := by
  intro mask
  induction mask with
  | nil =>
    intro lsg res amts _ _ _
    simp [maskedSum, assignMaskedOut]
  | cons m ms ih =>
    intro lsg res amts h1 h2 h3
    rcases lsg with _ | ⟨l, ls⟩
    · simp at h1
    rcases res with _ | ⟨r, rs⟩
    · simp at h2
    rcases amts with _ | ⟨a, ams⟩
    · simp at h3
    simp only [List.length_cons, Nat.add_right_cancel_iff] at h1 h2 h3
    have ihh := ih ls rs ams h1 h2 h3
    rw [assignMaskedOut_cons, maskedSum_cons, maskedSum_cons, maskedSum_cons]
    rcases m with _ | _
    · constructor
      · simp only [if_neg (by simp : ¬ (false = true))]
        have := ihh.1
        norm_num [List.count_cons]
        linarith
      · simp only [if_neg (by simp : ¬ (false = true))]
        have := ihh.2
        norm_num [List.count_cons]
        linarith
    · have hup : l * D ≤ N * ceil_div (l * D) N := by
        have h := fdiv_mul_le (-(l * D)) hN
        simp only [ceil_div]
        nlinarith [h]
      have hlo : N * ceil_div (l * D) N < l * D + N := by
        have h := lt_fdiv_add_one_mul (-(l * D)) hN
        simp only [ceil_div]
        nlinarith [h]
      constructor
      · rw [if_pos rfl]
        have := ihh.1
        norm_num [List.count_cons]
        linarith
      · rw [if_pos rfl]
        have := ihh.2
        norm_num [List.count_cons]
        linarith

lemma masked_all_ge_one_sum :
    ∀ (mask : List Bool) (xs : List Int), xs.length = mask.length →
      (∀ i, i < mask.length → mask.getD i false = true → 1 ≤ xs.getD i 0) →
      (mask.count true : ℤ) ≤ maskedSum mask xs := by
  intro mask
  induction mask with
  | nil => intro xs _ _; simp [maskedSum]
  | cons m ms ih =>
    intro xs hlen hpos
    rcases xs with _ | ⟨x, xs⟩
    · simp at hlen
    simp only [List.length_cons, Nat.add_right_cancel_iff] at hlen
    rw [maskedSum_cons]
    have ht := ih xs hlen (fun i hi hm => by
      have := hpos (i + 1) (by simp; omega) (by simpa using hm)
      simpa using this)
    rcases m with _ | _
    · simp only [if_neg (by simp : ¬ (false = true))]
      norm_num [List.count_cons]
      linarith
    · have h0 : 1 ≤ x := by
        have := hpos 0 (by simp) (by simp)
        simpa using this
      rw [if_pos rfl]
      norm_num [List.count_cons]
      linarith

/-- Invariant of the exact-in reject-and-resolve loop: when it returns, the
final mask is non-empty, excluded tiers carry amount `0`, every enabled
amount is non-negative, and the masked sum is within the enabled-tier count
of the requested amount. -/
lemma calcTAInLoop_spec (lsg res : List Int) (amount : Int) (hamt : 0 < amount) :
    ∀ (fuel : Nat) (mask : List Bool) (amts : List Int),
      lsg.length = mask.length → res.length = mask.length → amts.length = mask.length →
      (∀ i, i < lsg.length → 1 ≤ lsg.getD i 0) →
      (∃ i, i < mask.length ∧ mask.getD i false = true) →
      ∀ amtsF maskF, calcTAInLoop lsg res amount fuel mask amts = some (amtsF, maskF) →
        maskF.length = mask.length ∧ amtsF.length = mask.length ∧
        (∃ i, i < maskF.length ∧ maskF.getD i false = true) ∧
        (∀ i, i < maskF.length → maskF.getD i false = false → amtsF.getD i 0 = 0) ∧
        (∀ i, i < maskF.length → maskF.getD i false = true → 0 ≤ amtsF.getD i 0) ∧
        maskedSum maskF amtsF ≤ amount ∧
        amount - (maskF.count true : ℤ) ≤ maskedSum maskF amtsF := by
  intro fuel
  induction fuel with
  | zero =>
    intro mask amts _ _ _ _ _ amtsF maskF hl
    exact Option.noConfusion hl
  | succ n ih =>
    intro mask amts h1 h2 h3 hlsg hne amtsF maskF hl
    rw [calcTAInLoop] at hl
    have hN : 0 < maskedSum mask lsg :=
      lt_of_lt_of_le (by norm_num) (maskedSum_pos mask lsg h1 hlsg hne)
    have hlen' : (assignMasked mask lsg res amts (maskedSum mask res + amount)
        (maskedSum mask lsg)).length = mask.length :=
      length_assignMasked mask lsg res amts _ _ h1 h2 h3
    have hbounds := assign_sum_bounds (maskedSum mask res + amount) (maskedSum mask lsg)
      hN mask lsg res amts h1 h2 h3
    have hkey : (maskedSum mask res + amount) * maskedSum mask lsg -
        maskedSum mask lsg * maskedSum mask res = maskedSum mask lsg * amount := by
      ring
    rcases (ite_eq_iff.mp hl) with ⟨hall, hval⟩ | ⟨hall, hval⟩
    · have hpair := Option.some.inj hval
      have hftz : amtsF = zeroUnmasked mask (assignMasked mask lsg res amts
          (maskedSum mask res + amount) (maskedSum mask lsg)) := (congrArg Prod.fst hpair).symm
      have hmask : maskF = mask := (congrArg Prod.snd hpair).symm
      subst hftz
      rw [hmask]
      have hsign := (zip_all_iff (fun a => decide (a ≥ 0)) mask _ hlen').mp hall
      refine ⟨rfl, length_zeroUnmasked mask _ hlen', hne, ?_, ?_, ?_, ?_⟩
      · intro i hi hm
        rw [getD_zeroUnmasked mask _ hlen' i hi, hm]
        simp
      · intro i hi hm
        rw [getD_zeroUnmasked mask _ hlen' i hi, hm, if_pos rfl]
        have := hsign i hi hm
        exact of_decide_eq_true this
      · rw [maskedSum_zeroUnmasked mask _ hlen']
        have h := hbounds.1
        rw [hkey] at h
        exact le_of_mul_le_mul_left (by linarith) hN
      · rw [maskedSum_zeroUnmasked mask _ hlen']
        have h := hbounds.2
        rw [hkey] at h
        have : maskedSum mask lsg * (amount - (mask.count true : ℤ)) ≤
            maskedSum mask lsg * maskedSum mask
              (assignMasked mask lsg res amts (maskedSum mask res + amount)
                (maskedSum mask lsg)) := by
          have hexp : maskedSum mask lsg * (amount - (mask.count true : ℤ)) =
              maskedSum mask lsg * amount -
                maskedSum mask lsg * (mask.count true : ℤ) := by ring
          rw [hexp]
          linarith
        exact le_of_mul_le_mul_left this hN
    · -- rejection pass: some masked amount is negative, re-solve on the
      -- strictly smaller mask
      have hwit : ∃ j, j < mask.length ∧ mask.getD j false = true ∧
          0 ≤ (assignMasked mask lsg res amts (maskedSum mask res + amount)
            (maskedSum mask lsg)).getD j 0 := by
        by_contra hno
        push_neg at hno
        have hneg : ∀ i, i < mask.length → mask.getD i false = true →
            (assignMasked mask lsg res amts (maskedSum mask res + amount)
              (maskedSum mask lsg)).getD i 0 ≤ -1 := by
          intro i hi hm
          have := hno i hi hm
          omega
        have hsum := masked_all_le_neg_one_sum mask _ hlen' hneg
        have h := hbounds.2
        rw [hkey] at h
        have hcount : 1 ≤ (mask.count true : ℤ) := by
          exact_mod_cast count_pos_of_nonempty mask hne
        nlinarith [hsum, h, hN]
      rcases hwit with ⟨j, hj, hjm, hjge⟩
      have hlen'' : (List.zipWith (fun (m : Bool) (a : Int) => m && decide (a ≥ 0)) mask
          (assignMasked mask lsg res amts (maskedSum mask res + amount)
            (maskedSum mask lsg))).length = mask.length :=
        length_newMask _ mask _ hlen'
      have hne' : ∃ i, i < (List.zipWith (fun (m : Bool) (a : Int) => m && decide (a ≥ 0)) mask
          (assignMasked mask lsg res amts (maskedSum mask res + amount)
            (maskedSum mask lsg))).length ∧
          (List.zipWith (fun (m : Bool) (a : Int) => m && decide (a ≥ 0)) mask
            (assignMasked mask lsg res amts (maskedSum mask res + amount)
              (maskedSum mask lsg))).getD i false = true := by
        refine ⟨j, by rw [hlen'']; exact hj, ?_⟩
        rw [getD_newMask _ mask _ hlen' j hj, hjm]
        simp only [Bool.true_and, decide_eq_true_eq]
        exact hjge
      have hrec := ih _ _ (by rw [hlen'']; exact h1) (by rw [hlen'']; exact h2)
        (by rw [hlen'']; exact hlen') hlsg hne' amtsF maskF hval
      rw [hlen''] at hrec
      exact hrec

/-- The exact-in loop terminates within `mask.count true` iterations: each
rejection pass strictly shrinks the set of enabled tiers, which stays
non-empty. -/
lemma calcTAInLoop_terminates (lsg res : List Int) (amount : Int) (hamt : 0 < amount) :
    ∀ (fuel : Nat) (mask : List Bool) (amts : List Int),
      lsg.length = mask.length → res.length = mask.length → amts.length = mask.length →
      (∀ i, i < lsg.length → 1 ≤ lsg.getD i 0) →
      (∃ i, i < mask.length ∧ mask.getD i false = true) →
      mask.count true ≤ fuel →
      ∃ out, calcTAInLoop lsg res amount fuel mask amts = some out := by
  intro fuel
  induction fuel with
  | zero =>
    intro mask amts _ _ _ _ hne hc
    exact absurd hc (by have := count_pos_of_nonempty mask hne; omega)
  | succ n ih =>
    intro mask amts h1 h2 h3 hlsg hne hc
    rw [calcTAInLoop]
    have hN : 0 < maskedSum mask lsg :=
      lt_of_lt_of_le (by norm_num) (maskedSum_pos mask lsg h1 hlsg hne)
    have hlen' : (assignMasked mask lsg res amts (maskedSum mask res + amount)
        (maskedSum mask lsg)).length = mask.length :=
      length_assignMasked mask lsg res amts _ _ h1 h2 h3
    by_cases hall : (List.zipWith (fun (m : Bool) (a : Int) => !m || decide (a ≥ 0)) mask
        (assignMasked mask lsg res amts (maskedSum mask res + amount)
          (maskedSum mask lsg))).all id = true
    · rw [if_pos hall]
      exact ⟨_, rfl⟩
    · rw [if_neg hall]
      have hbounds := assign_sum_bounds (maskedSum mask res + amount) (maskedSum mask lsg)
        hN mask lsg res amts h1 h2 h3
      have hkey : (maskedSum mask res + amount) * maskedSum mask lsg -
          maskedSum mask lsg * maskedSum mask res = maskedSum mask lsg * amount := by
        ring
      have hwit : ∃ j, j < mask.length ∧ mask.getD j false = true ∧
          0 ≤ (assignMasked mask lsg res amts (maskedSum mask res + amount)
            (maskedSum mask lsg)).getD j 0 := by
        by_contra hno
        push_neg at hno
        have hneg : ∀ i, i < mask.length → mask.getD i false = true →
            (assignMasked mask lsg res amts (maskedSum mask res + amount)
              (maskedSum mask lsg)).getD i 0 ≤ -1 := by
          intro i hi hm
          have := hno i hi hm
          omega
        have hsum := masked_all_le_neg_one_sum mask _ hlen' hneg
        have h := hbounds.2
        rw [hkey] at h
        have hcount : 1 ≤ (mask.count true : ℤ) := by
          exact_mod_cast count_pos_of_nonempty mask hne
        nlinarith [hsum, h, hN]
      rcases hwit with ⟨j, hj, hjm, hjge⟩
      have hlen'' : (List.zipWith (fun (m : Bool) (a : Int) => m && decide (a ≥ 0)) mask
          (assignMasked mask lsg res amts (maskedSum mask res + amount)
            (maskedSum mask lsg))).length = mask.length :=
        length_newMask _ mask _ hlen'
      have hne' : ∃ i, i < (List.zipWith (fun (m : Bool) (a : Int) => m && decide (a ≥ 0)) mask
          (assignMasked mask lsg res amts (maskedSum mask res + amount)
            (maskedSum mask lsg))).length ∧
          (List.zipWith (fun (m : Bool) (a : Int) => m && decide (a ≥ 0)) mask
            (assignMasked mask lsg res amts (maskedSum mask res + amount)
              (maskedSum mask lsg))).getD i false = true := by
        refine ⟨j, by rw [hlen'']; exact hj, ?_⟩
        rw [getD_newMask _ mask _ hlen' j hj, hjm]
        simp only [Bool.true_and, decide_eq_true_eq]
        exact hjge
      have hviol : ∃ i, i < mask.length ∧ mask.getD i false = true ∧
          (decide ((assignMasked mask lsg res amts (maskedSum mask res + amount)
            (maskedSum mask lsg)).getD i 0 ≥ 0)) = false := by
        by_contra hno
        push_neg at hno
        apply hall
        apply (zip_all_iff (fun a => decide (a ≥ 0)) mask _ hlen').mpr
        intro i hi hm
        have := hno i hi hm
        cases hd : decide ((assignMasked mask lsg res amts (maskedSum mask res + amount)
            (maskedSum mask lsg)).getD i 0 ≥ 0) with
        | false => exact absurd hd this
        | true => rfl
      rcases hviol with ⟨v, hv, hvm, hvf⟩
      have hdec : (List.zipWith (fun (m : Bool) (a : Int) => m && decide (a ≥ 0)) mask
          (assignMasked mask lsg res amts (maskedSum mask res + amount)
            (maskedSum mask lsg))).count true < mask.count true :=
        count_newMask_lt (fun a => decide (a ≥ 0)) mask _ hlen' v hv hvm hvf
      exact ih _ _ (by rw [hlen'']; exact h1) (by rw [hlen'']; exact h2)
        (by rw [hlen'']; exact hlen') hlsg hne' (by omega)

/-- Unfolding of one step of the exact-out loop through `assignMaskedOut`. -/
lemma calcTAOutLoop_succ (lsg res : List Int) (amount : Int) (fuel : Nat)
    (mask : List Bool) (amts : List Int) :
    calcTAOutLoop lsg res amount (fuel + 1) mask amts =
      if (List.zipWith (fun (m : Bool) (a : Int) => !m || decide (a ≤ 0)) mask
          (assignMaskedOut mask lsg res amts (maskedSum mask res + amount)
            (maskedSum mask lsg))).all id then
        some (zeroUnmasked mask (assignMaskedOut mask lsg res amts
          (maskedSum mask res + amount) (maskedSum mask lsg)), mask)
      else
        calcTAOutLoop lsg res amount fuel
          (List.zipWith (fun (m : Bool) (a : Int) => m && decide (a ≤ 0)) mask
            (assignMaskedOut mask lsg res amts (maskedSum mask res + amount)
              (maskedSum mask lsg)))
          (assignMaskedOut mask lsg res amts (maskedSum mask res + amount)
            (maskedSum mask lsg)) := rfl

/-- Invariant of the exact-out reject-and-resolve loop: on return the mask is
non-empty, excluded tiers carry `0`, enabled amounts are non-positive, and
the masked sum is within the enabled-tier count of the (negative) requested
amount. -/
lemma calcTAOutLoop_spec (lsg res : List Int) (amount : Int) (hamt : amount < 0) :
    ∀ (fuel : Nat) (mask : List Bool) (amts : List Int),
      lsg.length = mask.length → res.length = mask.length → amts.length = mask.length →
      (∀ i, i < lsg.length → 1 ≤ lsg.getD i 0) →
      (∃ i, i < mask.length ∧ mask.getD i false = true) →
      ∀ amtsF maskF, calcTAOutLoop lsg res amount fuel mask amts = some (amtsF, maskF) →
        maskF.length = mask.length ∧ amtsF.length = mask.length ∧
        (∃ i, i < maskF.length ∧ maskF.getD i false = true) ∧
        (∀ i, i < maskF.length → maskF.getD i false = false → amtsF.getD i 0 = 0) ∧
        (∀ i, i < maskF.length → maskF.getD i false = true → amtsF.getD i 0 ≤ 0) ∧
        amount ≤ maskedSum maskF amtsF ∧
        maskedSum maskF amtsF ≤ amount + (maskF.count true : ℤ) := by
  intro fuel
  induction fuel with
  | zero =>
    intro mask amts _ _ _ _ _ amtsF maskF hl
    exact Option.noConfusion hl
  | succ n ih =>
    intro mask amts h1 h2 h3 hlsg hne amtsF maskF hl
    rw [calcTAOutLoop_succ] at hl
    have hN : 0 < maskedSum mask lsg :=
      lt_of_lt_of_le (by norm_num) (maskedSum_pos mask lsg h1 hlsg hne)
    have hlen' : (assignMaskedOut mask lsg res amts (maskedSum mask res + amount)
        (maskedSum mask lsg)).length = mask.length :=
      length_assignMaskedOut mask lsg res amts _ _ h1 h2 h3
    have hbounds := assign_sum_bounds_out (maskedSum mask res + amount) (maskedSum mask lsg)
      hN mask lsg res amts h1 h2 h3
    have hkey : (maskedSum mask res + amount) * maskedSum mask lsg -
        maskedSum mask lsg * maskedSum mask res = maskedSum mask lsg * amount := by
      ring
    rcases (ite_eq_iff.mp hl) with ⟨hall, hval⟩ | ⟨hall, hval⟩
    · have hpair := Option.some.inj hval
      have hftz : amtsF = zeroUnmasked mask (assignMaskedOut mask lsg res amts
          (maskedSum mask res + amount) (maskedSum mask lsg)) := (congrArg Prod.fst hpair).symm
      have hmask : maskF = mask := (congrArg Prod.snd hpair).symm
      subst hftz
      rw [hmask]
      have hsign := (zip_all_iff (fun a => decide (a ≤ 0)) mask _ hlen').mp hall
      refine ⟨rfl, length_zeroUnmasked mask _ hlen', hne, ?_, ?_, ?_, ?_⟩
      · intro i hi hm
        rw [getD_zeroUnmasked mask _ hlen' i hi, hm]
        simp
      · intro i hi hm
        rw [getD_zeroUnmasked mask _ hlen' i hi, hm, if_pos rfl]
        have := hsign i hi hm
        exact of_decide_eq_true this
      · rw [maskedSum_zeroUnmasked mask _ hlen']
        have h := hbounds.1
        rw [hkey] at h
        exact le_of_mul_le_mul_left (by linarith) hN
      · rw [maskedSum_zeroUnmasked mask _ hlen']
        have h := hbounds.2
        rw [hkey] at h
        have : maskedSum mask lsg * maskedSum mask
            (assignMaskedOut mask lsg res amts (maskedSum mask res + amount)
              (maskedSum mask lsg)) ≤
            maskedSum mask lsg * (amount + (mask.count true : ℤ)) := by
          have hexp : maskedSum mask lsg * (amount + (mask.count true : ℤ)) =
              maskedSum mask lsg * amount +
                maskedSum mask lsg * (mask.count true : ℤ) := by ring
          rw [hexp]
          linarith
        exact le_of_mul_le_mul_left this hN
    · have hwit : ∃ j, j < mask.length ∧ mask.getD j false = true ∧
          (assignMaskedOut mask lsg res amts (maskedSum mask res + amount)
            (maskedSum mask lsg)).getD j 0 ≤ 0 := by
        by_contra hno
        push_neg at hno
        have hpos : ∀ i, i < mask.length → mask.getD i false = true →
            1 ≤ (assignMaskedOut mask lsg res amts (maskedSum mask res + amount)
              (maskedSum mask lsg)).getD i 0 := by
          intro i hi hm
          have := hno i hi hm
          omega
        have hsum := masked_all_ge_one_sum mask _ hlen' hpos
        have h := hbounds.2
        rw [hkey] at h
        have hcount : 1 ≤ (mask.count true : ℤ) := by
          exact_mod_cast count_pos_of_nonempty mask hne
        nlinarith [hsum, h, hN]
      rcases hwit with ⟨j, hj, hjm, hjle⟩
      have hlen'' : (List.zipWith (fun (m : Bool) (a : Int) => m && decide (a ≤ 0)) mask
          (assignMaskedOut mask lsg res amts (maskedSum mask res + amount)
            (maskedSum mask lsg))).length = mask.length :=
        length_newMask _ mask _ hlen'
      have hne' : ∃ i, i < (List.zipWith (fun (m : Bool) (a : Int) => m && decide (a ≤ 0)) mask
          (assignMaskedOut mask lsg res amts (maskedSum mask res + amount)
            (maskedSum mask lsg))).length ∧
          (List.zipWith (fun (m : Bool) (a : Int) => m && decide (a ≤ 0)) mask
            (assignMaskedOut mask lsg res amts (maskedSum mask res + amount)
              (maskedSum mask lsg))).getD i false = true := by
        refine ⟨j, by rw [hlen'']; exact hj, ?_⟩
        rw [getD_newMask _ mask _ hlen' j hj, hjm]
        simp only [Bool.true_and, decide_eq_true_eq]
        exact hjle
      have hrec := ih _ _ (by rw [hlen'']; exact h1) (by rw [hlen'']; exact h2)
        (by rw [hlen'']; exact hlen') hlsg hne' amtsF maskF hval
      rw [hlen''] at hrec
      exact hrec

/-- The exact-out loop terminates within `mask.count true` iterations. -/
lemma calcTAOutLoop_terminates (lsg res : List Int) (amount : Int) (hamt : amount < 0) :
    ∀ (fuel : Nat) (mask : List Bool) (amts : List Int),
      lsg.length = mask.length → res.length = mask.length → amts.length = mask.length →
      (∀ i, i < lsg.length → 1 ≤ lsg.getD i 0) →
      (∃ i, i < mask.length ∧ mask.getD i false = true) →
      mask.count true ≤ fuel →
      ∃ out, calcTAOutLoop lsg res amount fuel mask amts = some out := by
  intro fuel
  induction fuel with
  | zero =>
    intro mask amts _ _ _ _ hne hc
    exact absurd hc (by have := count_pos_of_nonempty mask hne; omega)
  | succ n ih =>
    intro mask amts h1 h2 h3 hlsg hne hc
    rw [calcTAOutLoop_succ]
    have hN : 0 < maskedSum mask lsg :=
      lt_of_lt_of_le (by norm_num) (maskedSum_pos mask lsg h1 hlsg hne)
    have hlen' : (assignMaskedOut mask lsg res amts (maskedSum mask res + amount)
        (maskedSum mask lsg)).length = mask.length :=
      length_assignMaskedOut mask lsg res amts _ _ h1 h2 h3
    by_cases hall : (List.zipWith (fun (m : Bool) (a : Int) => !m || decide (a ≤ 0)) mask
        (assignMaskedOut mask lsg res amts (maskedSum mask res + amount)
          (maskedSum mask lsg))).all id = true
    · rw [if_pos hall]
      exact ⟨_, rfl⟩
    · rw [if_neg hall]
      have hbounds := assign_sum_bounds_out (maskedSum mask res + amount) (maskedSum mask lsg)
        hN mask lsg res amts h1 h2 h3
      have hkey : (maskedSum mask res + amount) * maskedSum mask lsg -
          maskedSum mask lsg * maskedSum mask res = maskedSum mask lsg * amount := by
        ring
      have hwit : ∃ j, j < mask.length ∧ mask.getD j false = true ∧
          (assignMaskedOut mask lsg res amts (maskedSum mask res + amount)
            (maskedSum mask lsg)).getD j 0 ≤ 0 := by
        by_contra hno
        push_neg at hno
        have hpos : ∀ i, i < mask.length → mask.getD i false = true →
            1 ≤ (assignMaskedOut mask lsg res amts (maskedSum mask res + amount)
              (maskedSum mask lsg)).getD i 0 := by
          intro i hi hm
          have := hno i hi hm
          omega
        have hsum := masked_all_ge_one_sum mask _ hlen' hpos
        have h := hbounds.2
        rw [hkey] at h
        have hcount : 1 ≤ (mask.count true : ℤ) := by
          exact_mod_cast count_pos_of_nonempty mask hne
        nlinarith [hsum, h, hN]
      rcases hwit with ⟨j, hj, hjm, hjle⟩
      have hlen'' : (List.zipWith (fun (m : Bool) (a : Int) => m && decide (a ≤ 0)) mask
          (assignMaskedOut mask lsg res amts (maskedSum mask res + amount)
            (maskedSum mask lsg))).length = mask.length :=
        length_newMask _ mask _ hlen'
      have hne' : ∃ i, i < (List.zipWith (fun (m : Bool) (a : Int) => m && decide (a ≤ 0)) mask
          (assignMaskedOut mask lsg res amts (maskedSum mask res + amount)
            (maskedSum mask lsg))).length ∧
          (List.zipWith (fun (m : Bool) (a : Int) => m && decide (a ≤ 0)) mask
            (assignMaskedOut mask lsg res amts (maskedSum mask res + amount)
              (maskedSum mask lsg))).getD i false = true := by
        refine ⟨j, by rw [hlen'']; exact hj, ?_⟩
        rw [getD_newMask _ mask _ hlen' j hj, hjm]
        simp only [Bool.true_and, decide_eq_true_eq]
        exact hjle
      have hviol : ∃ i, i < mask.length ∧ mask.getD i false = true ∧
          (decide ((assignMaskedOut mask lsg res amts (maskedSum mask res + amount)
            (maskedSum mask lsg)).getD i 0 ≤ 0)) = false := by
        by_contra hno
        push_neg at hno
        apply hall
        apply (zip_all_iff (fun a => decide (a ≤ 0)) mask _ hlen').mpr
        intro i hi hm
        have := hno i hi hm
        cases hd : decide ((assignMaskedOut mask lsg res amts (maskedSum mask res + amount)
            (maskedSum mask lsg)).getD i 0 ≤ 0) with
        | false => exact absurd hd this
        | true => rfl
      rcases hviol with ⟨v, hv, hvm, hvf⟩
      have hdec : (List.zipWith (fun (m : Bool) (a : Int) => m && decide (a ≤ 0)) mask
          (assignMaskedOut mask lsg res amts (maskedSum mask res + amount)
            (maskedSum mask lsg))).count true < mask.count true :=
        count_newMask_lt (fun a => decide (a ≤ 0)) mask _ hlen' v hv hvm hvf
      exact ih _ _ (by rw [hlen'']; exact h1) (by rw [hlen'']; exact h2)
        (by rw [hlen'']; exact hlen') hlsg hne' (by omega)

lemma ceil_div_ge_one {a b : Int} (hb : 0 < b) (hab : b ≤ a) : 1 ≤ ceil_div a b := by
  have hneg : -a < 0 := by omega
  have := Int.fdiv_neg' hneg hb
  simp only [ceil_div]
  omega

lemma floor_div_ge_one {a b : Int} (hb : 0 < b) (hab : b ≤ a) : 1 ≤ floor_div a b := by
  have h := lt_fdiv_add_one_mul a hb
  simp only [floor_div]
  by_contra hlt
  push_neg at hlt
  nlinarith

/-- The exact-in per-tier weights `ceil_div(liquidity * 10^5, sqrt_gamma)` are
at least `1` when liquidities are positive and fees are valid. -/
lemma lsgIn_ge_one (tier_choices : List Bool) (sqrt_gammas liquiditys : List Int)
    (hlg : sqrt_gammas.length = tier_choices.length)
    (hll : liquiditys.length = tier_choices.length)
    (hliq : ∀ i, i < tier_choices.length → 1 ≤ liquiditys.getD i 0)
    (hgam : ∀ i, i < tier_choices.length →
      0 < sqrt_gammas.getD i 0 ∧ sqrt_gammas.getD i 0 ≤ E5) :
    ∀ i, i < (List.zipWith (fun liq g => ceil_div (liq * E5) g) liquiditys sqrt_gammas).length →
      1 ≤ (List.zipWith (fun liq g => ceil_div (liq * E5) g) liquiditys sqrt_gammas).getD i 0 := by
  intro i hi
  simp only [List.length_zipWith, hlg, hll, Nat.min_self] at hi
  rw [getD_zipWith_int (fun liq g => ceil_div (liq * E5) g) liquiditys sqrt_gammas i
    (by omega) (by omega)]
  have h1 := hliq i hi
  have h2 := hgam i hi
  have hE : (E5 : Int) = 100000 := by norm_num [E5]
  refine ceil_div_ge_one h2.1 ?_
  rw [hE] at h2 ⊢
  nlinarith [h1, h2.1, h2.2]

/-- Same for the exact-out weights `floor_div(liquidity * 10^5, sqrt_gamma)`. -/
lemma lsgOut_ge_one (tier_choices : List Bool) (sqrt_gammas liquiditys : List Int)
    (hlg : sqrt_gammas.length = tier_choices.length)
    (hll : liquiditys.length = tier_choices.length)
    (hliq : ∀ i, i < tier_choices.length → 1 ≤ liquiditys.getD i 0)
    (hgam : ∀ i, i < tier_choices.length →
      0 < sqrt_gammas.getD i 0 ∧ sqrt_gammas.getD i 0 ≤ E5) :
    ∀ i, i < (List.zipWith (fun liq g => floor_div (liq * E5) g) liquiditys sqrt_gammas).length →
      1 ≤ (List.zipWith (fun liq g => floor_div (liq * E5) g) liquiditys sqrt_gammas).getD i 0 := by
  intro i hi
  simp only [List.length_zipWith, hlg, hll, Nat.min_self] at hi
  rw [getD_zipWith_int (fun liq g => floor_div (liq * E5) g) liquiditys sqrt_gammas i
    (by omega) (by omega)]
  have h1 := hliq i hi
  have h2 := hgam i hi
  have hE : (E5 : Int) = 100000 := by norm_num [E5]
  refine floor_div_ge_one h2.1 ?_
  rw [hE] at h2 ⊢
  nlinarith [h1, h2.1, h2.2]

/-- C3: For both directions of the integer allocation solver (exact-in with
`amount > 0`, exact-out with `amount < 0`), called with at least one enabled
tier, positive liquidities and valid fee factors: the call returns; tiers
outside the final mask receive amount exactly `0`; every finally-enabled
amount satisfies the direction's sign constraint (`≥ 0` for exact-in, `≤ 0`
for exact-out); and the masked sum equals the requested amount to within the
rounding tolerance of one unit per finally-enabled tier. -/
theorem c3_allocation_solver (is_token0 : Bool) (amount_in amount_out : Int)
    (tier_choices : List Bool) (sqrt_gammas sqrt_prices liquiditys : List Int)
    (hin : 0 < amount_in) (hout : amount_out < 0)
    (hlg : sqrt_gammas.length = tier_choices.length)
    (hlp : sqrt_prices.length = tier_choices.length)
    (hll : liquiditys.length = tier_choices.length)
    (hliq : ∀ i, i < tier_choices.length → 1 ≤ liquiditys.getD i 0)
    (hgam : ∀ i, i < tier_choices.length →
      0 < sqrt_gammas.getD i 0 ∧ sqrt_gammas.getD i 0 ≤ E5)
    (hne : ∃ i, i < tier_choices.length ∧ tier_choices.getD i false = true) :
    (∃ amts maskF, calc_tier_amounts_in is_token0 amount_in tier_choices sqrt_gammas
        sqrt_prices liquiditys = some (amts, maskF) ∧
      maskF.length = tier_choices.length ∧ amts.length = tier_choices.length ∧
      (∀ i, i < tier_choices.length → maskF.getD i false = false → amts.getD i 0 = 0) ∧
      (∀ i, i < tier_choices.length → maskF.getD i false = true → 0 ≤ amts.getD i 0) ∧
      amount_in - (maskF.count true : ℤ) ≤ maskedSum maskF amts ∧
      maskedSum maskF amts ≤ amount_in) ∧
    (∃ amts maskF, calc_tier_amounts_out is_token0 amount_out tier_choices sqrt_gammas
        sqrt_prices liquiditys = some (amts, maskF) ∧
      maskF.length = tier_choices.length ∧ amts.length = tier_choices.length ∧
      (∀ i, i < tier_choices.length → maskF.getD i false = false → amts.getD i 0 = 0) ∧
      (∀ i, i < tier_choices.length → maskF.getD i false = true → amts.getD i 0 ≤ 0) ∧
      amount_out ≤ maskedSum maskF amts ∧
      maskedSum maskF amts ≤ amount_out + (maskF.count true : ℤ)) := by
  constructor
  · have hunfold : calc_tier_amounts_in is_token0 amount_in tier_choices sqrt_gammas
        sqrt_prices liquiditys =
        calcTAInLoop (List.zipWith (fun liq g => ceil_div (liq * E5) g) liquiditys sqrt_gammas)
          (if is_token0 then
            List.zipWith (fun (liq : Int) (pg : Int × Int) =>
              ceil_div (liq * Q72 * E10) (pg.1 * pg.2 ^ 2)) liquiditys
              (sqrt_prices.zip sqrt_gammas)
          else
            List.zipWith (fun (liq : Int) (pg : Int × Int) =>
              ceil_div (liq * pg.1) (floor_div (Q72 * pg.2 ^ 2) E10)) liquiditys
              (sqrt_prices.zip sqrt_gammas))
          amount_in (tier_choices.length + 1) tier_choices
          (List.replicate sqrt_gammas.length 0) := rfl
    have hlsg_len : (List.zipWith (fun liq g => ceil_div (liq * E5) g) liquiditys
        sqrt_gammas).length = tier_choices.length := by
      simp [hlg, hll]
    have hres_len : (if is_token0 then
        List.zipWith (fun (liq : Int) (pg : Int × Int) =>
          ceil_div (liq * Q72 * E10) (pg.1 * pg.2 ^ 2)) liquiditys
          (sqrt_prices.zip sqrt_gammas)
      else
        List.zipWith (fun (liq : Int) (pg : Int × Int) =>
          ceil_div (liq * pg.1) (floor_div (Q72 * pg.2 ^ 2) E10)) liquiditys
          (sqrt_prices.zip sqrt_gammas)).length = tier_choices.length := by
      cases is_token0 <;> simp [hlg, hlp, hll]
    have hrep_len : (List.replicate sqrt_gammas.length (0 : Int)).length =
        tier_choices.length := by
      simp [hlg]
    have hlsg_pos := lsgIn_ge_one tier_choices sqrt_gammas liquiditys hlg hll hliq hgam
    have hcount : tier_choices.count true ≤ tier_choices.length + 1 :=
      le_trans (List.count_le_length _ _) (Nat.le_succ _)
    obtain ⟨⟨amts, maskF⟩, hsome⟩ := calcTAInLoop_terminates _ _ amount_in hin
      (tier_choices.length + 1) tier_choices (List.replicate sqrt_gammas.length 0)
      hlsg_len hres_len hrep_len hlsg_pos hne hcount
    have hspec := calcTAInLoop_spec _ _ amount_in hin (tier_choices.length + 1)
      tier_choices (List.replicate sqrt_gammas.length 0)
      hlsg_len hres_len hrep_len hlsg_pos hne amts maskF hsome
    refine ⟨amts, maskF, ?_, hspec.1, hspec.2.1, ?_, ?_, ?_, ?_⟩
    · rw [hunfold]
      exact hsome
    · intro i hi hm
      exact hspec.2.2.2.1 i (by rw [hspec.1]; exact hi) hm
    · intro i hi hm
      exact hspec.2.2.2.2.1 i (by rw [hspec.1]; exact hi) hm
    · exact hspec.2.2.2.2.2.2
    · exact hspec.2.2.2.2.2.1
  · have hunfold : calc_tier_amounts_out is_token0 amount_out tier_choices sqrt_gammas
        sqrt_prices liquiditys =
        calcTAOutLoop (List.zipWith (fun liq g => floor_div (liq * E5) g) liquiditys sqrt_gammas)
          (if is_token0 then
            List.zipWith (fun (liq : Int) (p : Int) => floor_div (liq * Q72) p)
              liquiditys sqrt_prices
          else
            List.zipWith (fun (liq : Int) (p : Int) => floor_div (liq * p) Q72)
              liquiditys sqrt_prices)
          amount_out (tier_choices.length + 1) tier_choices
          (List.replicate sqrt_gammas.length 0) := rfl
    have hlsg_len : (List.zipWith (fun liq g => floor_div (liq * E5) g) liquiditys
        sqrt_gammas).length = tier_choices.length := by
      simp [hlg, hll]
    have hres_len : (if is_token0 then
        List.zipWith (fun (liq : Int) (p : Int) => floor_div (liq * Q72) p)
          liquiditys sqrt_prices
      else
        List.zipWith (fun (liq : Int) (p : Int) => floor_div (liq * p) Q72)
          liquiditys sqrt_prices).length = tier_choices.length := by
      cases is_token0 <;> simp [hlp, hll]
    have hrep_len : (List.replicate sqrt_gammas.length (0 : Int)).length =
        tier_choices.length := by
      simp [hlg]
    have hlsg_pos := lsgOut_ge_one tier_choices sqrt_gammas liquiditys hlg hll hliq hgam
    have hcount : tier_choices.count true ≤ tier_choices.length + 1 :=
      le_trans (List.count_le_length _ _) (Nat.le_succ _)
    obtain ⟨⟨amts, maskF⟩, hsome⟩ := calcTAOutLoop_terminates _ _ amount_out hout
      (tier_choices.length + 1) tier_choices (List.replicate sqrt_gammas.length 0)
      hlsg_len hres_len hrep_len hlsg_pos hne hcount
    have hspec := calcTAOutLoop_spec _ _ amount_out hout (tier_choices.length + 1)
      tier_choices (List.replicate sqrt_gammas.length 0)
      hlsg_len hres_len hrep_len hlsg_pos hne amts maskF hsome
    refine ⟨amts, maskF, ?_, hspec.1, hspec.2.1, ?_, ?_, ?_, ?_⟩
    · rw [hunfold]
      exact hsome
    · intro i hi hm
      exact hspec.2.2.2.1 i (by rw [hspec.1]; exact hi) hm
    · intro i hi hm
      exact hspec.2.2.2.2.1 i (by rw [hspec.1]; exact hi) hm
    · exact hspec.2.2.2.2.2.1
    · exact hspec.2.2.2.2.2.2

theorem c3_allocation_solver_witness :
    0 < (1000000 : ℤ) ∧ (-1000000 : ℤ) < 0 ∧
    (∃ amts maskF, calc_tier_amounts_in true 1000000 [true, true] [99850, 99925]
        [2 ^ 72, 2 ^ 72] [10 ^ 9, 2 * 10 ^ 9] = some (amts, maskF)) ∧
    (∃ amts maskF, calc_tier_amounts_out true (-1000000) [true, true] [99850, 99925]
        [2 ^ 72, 2 ^ 72] [10 ^ 9, 2 * 10 ^ 9] = some (amts, maskF)) := by
  have h := c3_allocation_solver true 1000000 (-1000000) [true, true] [99850, 99925]
    [2 ^ 72, 2 ^ 72] [10 ^ 9, 2 * 10 ^ 9] (by norm_num) (by norm_num) (by decide)
    (by decide) (by decide) (by decide) (by decide) (by decide)
  obtain ⟨⟨a1, m1, hs1, _⟩, ⟨a2, m2, hs2, _⟩⟩ := h
  exact ⟨by norm_num, by norm_num, ⟨a1, m1, hs1⟩, ⟨a2, m2, hs2⟩⟩

/-- C7: The reject-and-resolve loops of both directions of the integer
allocation solver, run with fuel equal to the tier count `n` on the weight
and residual lists the solver builds, already return: each iteration that
does not break strictly shrinks the (never emptied) enabled-tier mask, so at
most `n` iterations occur. -/
theorem c7_solver_loop_terminates (is_token0 : Bool) (amount_in amount_out : Int)
    (tier_choices : List Bool) (sqrt_gammas sqrt_prices liquiditys : List Int)
    (hin : 0 < amount_in) (hout : amount_out < 0)
    (hlg : sqrt_gammas.length = tier_choices.length)
    (hlp : sqrt_prices.length = tier_choices.length)
    (hll : liquiditys.length = tier_choices.length)
    (hliq : ∀ i, i < tier_choices.length → 1 ≤ liquiditys.getD i 0)
    (hgam : ∀ i, i < tier_choices.length →
      0 < sqrt_gammas.getD i 0 ∧ sqrt_gammas.getD i 0 ≤ E5)
    (hne : ∃ i, i < tier_choices.length ∧ tier_choices.getD i false = true) :
    (∃ out, calcTAInLoop
        (List.zipWith (fun liq g => ceil_div (liq * E5) g) liquiditys sqrt_gammas)
        (if is_token0 then
          List.zipWith (fun (liq : Int) (pg : Int × Int) =>
            ceil_div (liq * Q72 * E10) (pg.1 * pg.2 ^ 2)) liquiditys
            (sqrt_prices.zip sqrt_gammas)
        else
          List.zipWith (fun (liq : Int) (pg : Int × Int) =>
            ceil_div (liq * pg.1) (floor_div (Q72 * pg.2 ^ 2) E10)) liquiditys
            (sqrt_prices.zip sqrt_gammas))
        amount_in tier_choices.length tier_choices
        (List.replicate sqrt_gammas.length 0) = some out) ∧
    (∃ out, calcTAOutLoop
        (List.zipWith (fun liq g => floor_div (liq * E5) g) liquiditys sqrt_gammas)
        (if is_token0 then
          List.zipWith (fun (liq : Int) (p : Int) => floor_div (liq * Q72) p)
            liquiditys sqrt_prices
        else
          List.zipWith (fun (liq : Int) (p : Int) => floor_div (liq * p) Q72)
            liquiditys sqrt_prices)
        amount_out tier_choices.length tier_choices
        (List.replicate sqrt_gammas.length 0) = some out) := by
  constructor
  · have hlsg_len : (List.zipWith (fun liq g => ceil_div (liq * E5) g) liquiditys
        sqrt_gammas).length = tier_choices.length := by
      simp [hlg, hll]
    have hres_len : (if is_token0 then
        List.zipWith (fun (liq : Int) (pg : Int × Int) =>
          ceil_div (liq * Q72 * E10) (pg.1 * pg.2 ^ 2)) liquiditys
          (sqrt_prices.zip sqrt_gammas)
      else
        List.zipWith (fun (liq : Int) (pg : Int × Int) =>
          ceil_div (liq * pg.1) (floor_div (Q72 * pg.2 ^ 2) E10)) liquiditys
          (sqrt_prices.zip sqrt_gammas)).length = tier_choices.length := by
      cases is_token0 <;> simp [hlg, hlp, hll]
    have hrep_len : (List.replicate sqrt_gammas.length (0 : Int)).length =
        tier_choices.length := by
      simp [hlg]
    exact calcTAInLoop_terminates _ _ amount_in hin tier_choices.length tier_choices
      (List.replicate sqrt_gammas.length 0) hlsg_len hres_len hrep_len
      (lsgIn_ge_one tier_choices sqrt_gammas liquiditys hlg hll hliq hgam) hne
      (List.count_le_length _ _)
  · have hlsg_len : (List.zipWith (fun liq g => floor_div (liq * E5) g) liquiditys
        sqrt_gammas).length = tier_choices.length := by
      simp [hlg, hll]
    have hres_len : (if is_token0 then
        List.zipWith (fun (liq : Int) (p : Int) => floor_div (liq * Q72) p)
          liquiditys sqrt_prices
      else
        List.zipWith (fun (liq : Int) (p : Int) => floor_div (liq * p) Q72)
          liquiditys sqrt_prices).length = tier_choices.length := by
      cases is_token0 <;> simp [hlp, hll]
    have hrep_len : (List.replicate sqrt_gammas.length (0 : Int)).length =
        tier_choices.length := by
      simp [hlg]
    exact calcTAOutLoop_terminates _ _ amount_out hout tier_choices.length tier_choices
      (List.replicate sqrt_gammas.length 0) hlsg_len hres_len hrep_len
      (lsgOut_ge_one tier_choices sqrt_gammas liquiditys hlg hll hliq hgam) hne
      (List.count_le_length _ _)

theorem c7_solver_loop_terminates_witness :
    0 < (1000000 : ℤ) ∧ (-1000000 : ℤ) < 0 ∧
    (∃ out, calcTAInLoop
        (List.zipWith (fun liq g => ceil_div (liq * E5) g) [10 ^ 9, 2 * 10 ^ 9]
          [99850, 99925])
        (List.zipWith (fun (liq : Int) (pg : Int × Int) =>
            ceil_div (liq * Q72 * E10) (pg.1 * pg.2 ^ 2)) [10 ^ 9, 2 * 10 ^ 9]
            ([(2 : Int) ^ 72, 2 ^ 72].zip [99850, 99925]))
        1000000 ([true, true] : List Bool).length [true, true]
        (List.replicate ([99850, 99925] : List Int).length 0) = some out) := by
  have h := c7_solver_loop_terminates true 1000000 (-1000000) [true, true] [99850, 99925]
    [2 ^ 72, 2 ^ 72] [10 ^ 9, 2 * 10 ^ 9] (by norm_num) (by norm_num) (by decide)
    (by decide) (by decide) (by decide) (by decide) (by decide)
  obtain ⟨⟨out1, hs1⟩, _⟩ := h
  exact ⟨by norm_num, by norm_num, ⟨out1, hs1⟩⟩

/- ------------------------------------------------------------------ -/
/- C8: strict monotonicity of _tick_to_sqrt_p                          -/
/- ------------------------------------------------------------------ -/

/-- The accumulator of `_tick_to_sqrt_p` after processing bits `0..j-1`
(recursive form of the 20-step fold). -/
def rAccAux (x : Nat) : Nat → Nat
  | 0 => 2 ^ 128
  | j + 1 => rStep x j (rAccAux x j)

lemma rAcc_eq_aux (x : Nat) : rAcc x = rAccAux x 20 := rfl

/-- The exact (unrounded) factor contributed by bit `k`:
`consts[k]/2^128` when the bit is set, `1` otherwise. -/
def pF (x k : Nat) : ℚ :=
  if x &&& 2 ^ k > 0 then (tickC k : ℚ) / 2 ^ 128 else 1

/-- The exact rational value the accumulator chain approximates after `j`
steps: `2^128` times the product of the first `j` bit factors. -/
def Pj (x j : Nat) : ℚ := 2 ^ 128 * ∏ k ∈ Finset.range j, pF x k

lemma Pj_succ (x j : Nat) : Pj x (j + 1) = Pj x j * pF x j := by
  simp [Pj, Finset.prod_range_succ, mul_assoc]

lemma pF_nonneg (x k : Nat) : 0 ≤ pF x k := by
  unfold pF
  split
  · positivity
  · norm_num

lemma tickC_le (k : Nat) (hk : k < 20) : tickC k ≤ 2 ^ 128 := by
  interval_cases k <;> decide

lemma pF_le_one (x k : Nat) (hk : k < 20) : pF x k ≤ 1 := by
  unfold pF
  split
  · rw [div_le_one (by positivity)]
    exact_mod_cast tickC_le k hk
  · exact le_rfl

lemma Pj_nonneg (x j : Nat) : 0 ≤ Pj x j := by
  unfold Pj
  have := Finset.prod_nonneg (fun k (_ : k ∈ Finset.range j) => pF_nonneg x k)
  positivity

/-- Product of the first `t` multiplier constants. -/
def Cprod : Nat → Nat
  | 0 => 1
  | t + 1 => Cprod t * tickC t

/-- The twenty concrete ratio inequalities behind the per-tick decay factor
`1 - 4999/10^8`: clearing a block of `t` trailing set bits and setting bit
`t` shrinks the exact product by at least that factor. -/
lemma ratio_facts : ∀ t, t < 20 →
    tickC t * 2 ^ (128 * t) * 10 ^ 8 ≤ (10 ^ 8 - 4999) * 2 ^ 128 * Cprod t := by
  decide

lemma and_pow_pos_iff (x k : Nat) : x &&& 2 ^ k > 0 ↔ x / 2 ^ k % 2 = 1 := by
  rw [Nat.and_two_pow]
  rcases h : x.testBit k with _ | _
  · rw [Nat.testBit_to_div_mod] at h
    simp only [decide_eq_false_iff_not] at h
    simp [h]
  · rw [Nat.testBit_to_div_mod] at h
    simp only [decide_eq_true_eq] at h
    simp [h]

/-- The round-up shrink (a ceiling by `2^56`) is strictly monotone across a
gap of `2^56`. -/
lemma shrink_lt {a b : Nat} (h : a + 2 ^ 56 ≤ b) : shrink a < shrink b := by
  simp only [shrink, NFRAC, Nat.shiftRight_eq_div_pow, Nat.shiftLeft_eq, one_mul]
  norm_num at h ⊢
  split_ifs <;> omega

/-- Error bound of the accumulator chain against the exact product: after `j`
steps the integer accumulator is at most the exact value and within `j` of
it (each truncating step loses less than one unit, and the factors are at
most one). -/
lemma rAccAux_bounds (x : Nat) : ∀ j, j ≤ 20 →
    (rAccAux x j : ℚ) ≤ Pj x j ∧ Pj x j - j ≤ rAccAux x j := by
  intro j
  induction j with
  | zero =>
    intro _
    constructor
    · show ((2 ^ 128 : ℕ) : ℚ) ≤ Pj x 0
      simp [Pj]
      norm_num
    · show Pj x 0 - 0 ≤ ((2 ^ 128 : ℕ) : ℚ)
      simp [Pj]
      norm_num
  | succ j ih =>
    intro hj
    obtain ⟨ihu, ihl⟩ := ih (by omega)
    have hje : (0 : ℚ) ≤ j := by positivity
    rw [Pj_succ]
    show ((rStep x j (rAccAux x j) : ℕ) : ℚ) ≤ _ ∧ _ ≤ ((rStep x j (rAccAux x j) : ℕ) : ℚ)
    unfold rStep
    by_cases hbit : x &&& 2 ^ j > 0
    · rw [if_pos hbit]
      have hpfe : pF x j = (tickC j : ℚ) / 2 ^ 128 := by
        unfold pF
        rw [if_pos hbit]
      have hq1 : ((rAccAux x j * tickC j) >>> 128) * 2 ^ 128 ≤ rAccAux x j * tickC j := by
        rw [Nat.shiftRight_eq_div_pow]
        exact Nat.div_mul_le_self _ _
      have hq2 : rAccAux x j * tickC j <
          ((rAccAux x j * tickC j) >>> 128 + 1) * 2 ^ 128 := by
        rw [Nat.shiftRight_eq_div_pow]
        exact (Nat.div_lt_iff_lt_mul (by positivity)).mp (Nat.lt_succ_self _)
      have hq1' : (((rAccAux x j * tickC j) >>> 128 : ℕ) : ℚ) * 2 ^ 128 ≤
          (rAccAux x j : ℚ) * (tickC j : ℚ) := by exact_mod_cast hq1
      have hq2' : (rAccAux x j : ℚ) * (tickC j : ℚ) <
          ((((rAccAux x j * tickC j) >>> 128 : ℕ) : ℚ) + 1) * 2 ^ 128 := by
        exact_mod_cast hq2
      have hP : (0 : ℚ) < 2 ^ 128 := by positivity
      have hcn : (0 : ℚ) ≤ (tickC j : ℚ) := by positivity
      have hfac : (tickC j : ℚ) / 2 ^ 128 ≤ 1 := by
        rw [div_le_one hP]
        exact_mod_cast tickC_le j (by omega)
      constructor
      · rw [hpfe]
        rw [show Pj x j * ((tickC j : ℚ) / 2 ^ 128) = Pj x j * (tickC j : ℚ) / 2 ^ 128
          by ring]
        rw [le_div_iff hP]
        calc (((rAccAux x j * tickC j) >>> 128 : ℕ) : ℚ) * 2 ^ 128 ≤
            (rAccAux x j : ℚ) * (tickC j : ℚ) := hq1'
          _ ≤ Pj x j * (tickC j : ℚ) := mul_le_mul_of_nonneg_right ihu hcn
      · rw [hpfe]
        have h1 : Pj x j * ((tickC j : ℚ) / 2 ^ 128) - j ≤
            (rAccAux x j : ℚ) * ((tickC j : ℚ) / 2 ^ 128) := by
          have hmul : (Pj x j - j) * ((tickC j : ℚ) / 2 ^ 128) ≤
              (rAccAux x j : ℚ) * ((tickC j : ℚ) / 2 ^ 128) :=
            mul_le_mul_of_nonneg_right ihl (by positivity)
          nlinarith [hmul, hfac, hje]
        have h2 : (rAccAux x j : ℚ) * ((tickC j : ℚ) / 2 ^ 128) <
            (((rAccAux x j * tickC j) >>> 128 : ℕ) : ℚ) + 1 := by
          push_cast
          rw [show (rAccAux x j : ℚ) * ((tickC j : ℚ) / 2 ^ 128) =
            (rAccAux x j : ℚ) * (tickC j : ℚ) / 2 ^ 128 by ring]
          rw [div_lt_iff hP]
          push_cast at hq2'
          exact hq2'
        push_cast
        push_cast at h1 h2
        linarith
    · rw [if_neg hbit]
      have hpfe : pF x j = 1 := by
        unfold pF
        rw [if_neg hbit]
      rw [hpfe, mul_one]
      constructor
      · exact ihu
      · push_cast
        linarith

/-- Every natural number ends in a (possibly empty) block of binary ones:
`x + 1 = m * 2^(t+1) + 2^t` where `t` counts the trailing ones of `x`. -/
lemma trailing_ones_decomp : ∀ x : Nat, ∃ t m, x + 1 = m * 2 ^ (t + 1) + 2 ^ t := by
  intro x
  induction x using Nat.strong_induction_on with
  | _ x ih =>
    rcases Nat.even_or_odd x with ⟨y, hy⟩ | ⟨y, hy⟩
    · exact ⟨0, y, by omega⟩
    · rcases x with _ | x'
      · omega
      · obtain ⟨t, m, hm⟩ := ih y (by omega)
        refine ⟨t + 1, m, ?_⟩
        have : x' + 1 + 1 = 2 * (y + 1) := by omega
        rw [this, hm]
        ring

lemma pow_split_low (t k : Nat) (hk : k < t) :
    2 ^ t = 2 ^ k * (2 * 2 ^ (t - k - 1)) ∧
    2 ^ (t + 1) = 2 ^ k * (4 * 2 ^ (t - k - 1)) := by
  constructor
  · have h : 2 ^ k * (2 * 2 ^ (t - k - 1)) = 2 ^ (k + (1 + (t - k - 1))) := by
      rw [pow_add, pow_add, pow_one]
    rw [h, show k + (1 + (t - k - 1)) = t by omega]
  · have h : 2 ^ k * (4 * 2 ^ (t - k - 1)) = 2 ^ (k + (2 + (t - k - 1))) := by
      rw [pow_add, pow_add]
      norm_num
    rw [h, show k + (2 + (t - k - 1)) = t + 1 by omega]

/-- Bit `k < t` of `x` (which ends in `t` ones) is set. -/
lemma bit_low_x (x t m k : Nat) (hx1 : x + 1 = m * 2 ^ (t + 1) + 2 ^ t) (hk : k < t) :
    x / 2 ^ k % 2 = 1 := by
  obtain ⟨hb1, hb2⟩ := pow_split_low t k hk
  have ha : 0 < 2 ^ k := by positivity
  have hbb : 0 < 2 ^ (t - k - 1) := by positivity
  have hQ : x + 1 = 2 ^ k * (4 * (2 ^ (t - k - 1) * m) + 2 * 2 ^ (t - k - 1)) := by
    rw [hx1, hb1, hb2]
    ring
  have he1 : 2 ^ k * (4 * (2 ^ (t - k - 1) * m) + 2 * 2 ^ (t - k - 1) - 1) + 2 ^ k =
      2 ^ k * (4 * (2 ^ (t - k - 1) * m) + 2 * 2 ^ (t - k - 1)) := by
    rw [← Nat.mul_succ]
    congr 1
    omega
  have hx : x = 2 ^ k * (4 * (2 ^ (t - k - 1) * m) + 2 * 2 ^ (t - k - 1) - 1) +
      (2 ^ k - 1) := by
    omega
  rw [hx, Nat.mul_add_div ha, Nat.div_eq_of_lt (by omega), Nat.add_zero]
  omega

/-- Bit `t` of `x` (which ends in exactly `t` ones) is clear. -/
lemma bit_t_x (x t m : Nat) (hx1 : x + 1 = m * 2 ^ (t + 1) + 2 ^ t) :
    x / 2 ^ t % 2 = 0 := by
  have ha : 0 < 2 ^ t := by positivity
  have hQ : x + 1 = 2 ^ t * (2 * m + 1) := by
    rw [hx1, pow_succ]
    ring
  have he1 : 2 ^ t * (2 * m) + 2 ^ t = 2 ^ t * (2 * m + 1) := by
    rw [← Nat.mul_succ]
  have hx : x = 2 ^ t * (2 * m) + (2 ^ t - 1) := by
    omega
  rw [hx, Nat.mul_add_div ha, Nat.div_eq_of_lt (by omega), Nat.add_zero]
  omega

/-- Bit `k < t` of `x + 1` is clear. -/
lemma bit_low_x1 (x t m k : Nat) (hx1 : x + 1 = m * 2 ^ (t + 1) + 2 ^ t) (hk : k < t) :
    (x + 1) / 2 ^ k % 2 = 0 := by
  obtain ⟨hb1, hb2⟩ := pow_split_low t k hk
  have ha : 0 < 2 ^ k := by positivity
  have hQ : x + 1 = 2 ^ k * (4 * (2 ^ (t - k - 1) * m) + 2 * 2 ^ (t - k - 1)) := by
    rw [hx1, hb1, hb2]
    ring
  rw [hQ, Nat.mul_div_cancel_left _ ha]
  omega

/-- Bit `t` of `x + 1` is set. -/
lemma bit_t_x1 (x t m : Nat) (hx1 : x + 1 = m * 2 ^ (t + 1) + 2 ^ t) :
    (x + 1) / 2 ^ t % 2 = 1 := by
  have ha : 0 < 2 ^ t := by positivity
  have hQ : x + 1 = 2 ^ t * (2 * m + 1) := by
    rw [hx1, pow_succ]
    ring
  rw [hQ, Nat.mul_div_cancel_left _ ha]
  omega

/-- Bits above `t` agree between `x` and `x + 1`. -/
lemma bit_high_eq (x t m k : Nat) (hx1 : x + 1 = m * 2 ^ (t + 1) + 2 ^ t) (hk : t < k) :
    x / 2 ^ k = (x + 1) / 2 ^ k := by
  have hc : 0 < 2 ^ (t + 1) := by positivity
  have hk2 : 2 ^ k = 2 ^ (t + 1) * 2 ^ (k - t - 1) := by
    rw [← pow_add, show t + 1 + (k - t - 1) = k by omega]
  have hlt : 2 ^ t < 2 ^ (t + 1) := Nat.pow_lt_pow_right one_lt_two (Nat.lt_succ_self t)
  have hx1' : x + 1 = 2 ^ (t + 1) * m + 2 ^ t := by
    rw [hx1]
    ring
  have hdx1 : (x + 1) / 2 ^ (t + 1) = m := by
    rw [hx1', Nat.mul_add_div hc, Nat.div_eq_of_lt hlt, Nat.add_zero]
  have hx' : x = 2 ^ (t + 1) * m + (2 ^ t - 1) := by
    omega
  have hdx : x / 2 ^ (t + 1) = m := by
    rw [hx', Nat.mul_add_div hc, Nat.div_eq_of_lt (by omega), Nat.add_zero]
  rw [hk2, ← Nat.div_div_eq_div_mul, ← Nat.div_div_eq_div_mul, hdx, hdx1]

lemma Qt_eq : ∀ t : Nat,
    (∏ k ∈ Finset.range t, (tickC k : ℚ) / 2 ^ 128) = (Cprod t : ℚ) / 2 ^ (128 * t) := by
  intro t
  induction t with
  | zero => simp [Cprod]
  | succ t ih =>
    rw [Finset.prod_range_succ, ih]
    show _ = ((Cprod t * tickC t : ℕ) : ℚ) / _
    push_cast
    rw [div_mul_div_comm, show 128 * (t + 1) = 128 * t + 128 by ring, pow_add]

lemma q_ratio (t : Nat) (ht : t < 20) :
    (tickC t : ℚ) / 2 ^ 128 ≤
      (1 - 4999 / 100000000) * ((Cprod t : ℚ) / 2 ^ (128 * t)) := by
  have hN := ratio_facts t ht
  have hC : (tickC t : ℚ) * 2 ^ (128 * t) * 10 ^ 8 ≤
      (10 ^ 8 - 4999) * 2 ^ 128 * (Cprod t : ℚ) := by
    have : ((tickC t * 2 ^ (128 * t) * 10 ^ 8 : ℕ) : ℚ) ≤
        (((10 ^ 8 - 4999) * 2 ^ 128 * Cprod t : ℕ) : ℚ) := by exact_mod_cast hN
    push_cast at this
    convert this using 2
    norm_num
  have h1 : (0 : ℚ) < 2 ^ 128 := by positivity
  have h2 : (0 : ℚ) < 2 ^ (128 * t) := by positivity
  rw [show (1 - 4999 / 100000000 : ℚ) * ((Cprod t : ℚ) / 2 ^ (128 * t)) =
    ((1 - 4999 / 100000000) * (Cprod t : ℚ)) / 2 ^ (128 * t) by ring]
  rw [div_le_div_iff h1 h2]
  nlinarith [hC]

lemma prod_low_x (x t m : Nat) (hx1 : x + 1 = m * 2 ^ (t + 1) + 2 ^ t) :
    (∏ k ∈ Finset.range (t + 1), pF x k) =
      ∏ k ∈ Finset.range t, (tickC k : ℚ) / 2 ^ 128 := by
  rw [Finset.prod_range_succ]
  have hft : pF x t = 1 := by
    unfold pF
    rw [if_neg]
    intro h
    rw [and_pow_pos_iff] at h
    have := bit_t_x x t m hx1
    omega
  rw [hft, mul_one]
  refine Finset.prod_congr rfl ?_
  intro k hk
  rw [Finset.mem_range] at hk
  unfold pF
  rw [if_pos ((and_pow_pos_iff x k).mpr (bit_low_x x t m k hx1 hk))]

lemma prod_low_x1 (x t m : Nat) (hx1 : x + 1 = m * 2 ^ (t + 1) + 2 ^ t) :
    (∏ k ∈ Finset.range (t + 1), pF (x + 1) k) = (tickC t : ℚ) / 2 ^ 128 := by
  rw [Finset.prod_range_succ]
  have hft : pF (x + 1) t = (tickC t : ℚ) / 2 ^ 128 := by
    unfold pF
    rw [if_pos ((and_pow_pos_iff (x + 1) t).mpr (bit_t_x1 x t m hx1))]
  have hones : (∏ k ∈ Finset.range t, pF (x + 1) k) = 1 := by
    refine Finset.prod_eq_one ?_
    intro k hk
    rw [Finset.mem_range] at hk
    unfold pF
    rw [if_neg]
    intro h
    rw [and_pow_pos_iff] at h
    have := bit_low_x1 x t m k hx1 hk
    omega
  rw [hft, hones, one_mul]

/-- One tick of the exact product costs at least the factor
`1 - 4999/10^8`. -/
lemma P_ratio (x : Nat) (hx : x + 1 ≤ 776363) :
    Pj (x + 1) 20 ≤ (1 - 4999 / 100000000 : ℚ) * Pj x 20 := by
  obtain ⟨t, m, hx1⟩ := trailing_ones_decomp x
  have ht : t < 20 := by
    by_contra hc
    push_neg at hc
    have h20 : (2 : ℕ) ^ 20 ≤ 2 ^ t := Nat.pow_le_pow_right (by norm_num) hc
    have hle : 2 ^ t ≤ x + 1 := by omega
    omega
  unfold Pj
  rw [show (20 : ℕ) = (t + 1) + (19 - t) by omega]
  rw [Finset.prod_range_add (fun k => pF (x + 1) k) (t + 1) (19 - t),
    Finset.prod_range_add (fun k => pF x k) (t + 1) (19 - t)]
  have htail : (∏ i ∈ Finset.range (19 - t), pF (x + 1) (t + 1 + i)) =
      ∏ i ∈ Finset.range (19 - t), pF x (t + 1 + i) := by
    refine Finset.prod_congr rfl ?_
    intro i _
    unfold pF
    refine if_congr ?_ rfl rfl
    rw [and_pow_pos_iff, and_pow_pos_iff,
      bit_high_eq x t m (t + 1 + i) hx1 (by omega)]
  rw [htail, prod_low_x x t m hx1, prod_low_x1 x t m hx1, Qt_eq]
  have hT : (0 : ℚ) ≤ ∏ i ∈ Finset.range (19 - t), pF x (t + 1 + i) :=
    Finset.prod_nonneg (fun i _ => pF_nonneg x _)
  have hq := q_ratio t ht
  have key := mul_le_mul_of_nonneg_left hq
    (show (0 : ℚ) ≤ 2 ^ 128 * ∏ i ∈ Finset.range (19 - t), pF x (t + 1 + i) by positivity)
  linear_combination key

lemma Pj_anti : ∀ (d x : Nat), x + d ≤ 776363 → Pj (x + d) 20 ≤ Pj x 20 := by
  intro d
  induction d with
  | zero => intro x _; exact le_rfl
  | succ d ih =>
    intro x hxd
    have h1 : Pj (x + d + 1) 20 ≤ (1 - 4999 / 100000000 : ℚ) * Pj (x + d) 20 :=
      P_ratio (x + d) (by omega)
    have h2 := Pj_nonneg (x + d) 20
    have h3 := ih x (by omega)
    have : Pj (x + (d + 1)) 20 = Pj (x + d + 1) 20 := by
      rw [show x + (d + 1) = x + d + 1 by ring]
    rw [this]
    nlinarith [h1, h2, h3]

/-- Rational bracket of the accumulator at any in-range argument. -/
lemma rAcc_q_bounds (x : Nat) :
    (rAcc x : ℚ) ≤ Pj x 20 ∧ Pj x 20 - 20 ≤ rAcc x := by
  have h := rAccAux_bounds x 20 le_rfl
  rw [rAcc_eq_aux]
  constructor
  · exact h.1
  · have := h.2
    push_cast at this ⊢
    linarith

lemma B0_decay : (2 * 10 ^ 17 + 20) * 10 ^ 8 ≤ 4999 * rAcc 776363 := by decide

lemma B0_big : 21 ≤ rAcc 776363 := by decide

lemma Pj_lower (x : Nat) (hx : x ≤ 776363) : (rAcc 776363 : ℚ) ≤ Pj x 20 := by
  have h1 := (rAcc_q_bounds 776363).1
  have h2 : Pj (x + (776363 - x)) 20 ≤ Pj x 20 := Pj_anti (776363 - x) x (by omega)
  rw [show x + (776363 - x) = 776363 by omega] at h2
  linarith

/-- Consecutive accumulator values are separated by at least `2 * 10^17`. -/
lemma rAcc_gap (x : Nat) (hx : x + 1 ≤ 776363) :
    rAcc (x + 1) + 2 * 10 ^ 17 ≤ rAcc x := by
  have h1 := (rAcc_q_bounds (x + 1)).1
  have h2 := P_ratio x hx
  have h3 := (rAcc_q_bounds x).2
  have h4 := Pj_lower x (by omega)
  have h5 : ((2 * 10 ^ 17 + 20) * 10 ^ 8 : ℚ) ≤ 4999 * (rAcc 776363 : ℚ) := by
    exact_mod_cast B0_decay
  have h6 : (4999 / 100000000 : ℚ) * (rAcc 776363 : ℚ) ≤
      (4999 / 100000000) * Pj x 20 :=
    mul_le_mul_of_nonneg_left h4 (by norm_num)
  have hq : (rAcc (x + 1) : ℚ) + 2 * 10 ^ 17 ≤ (rAcc x : ℚ) := by
    nlinarith [h1, h2, h3, h5, h6]
  exact_mod_cast hq

lemma rAcc_ge_one (x : Nat) (hx : x ≤ 776363) : 1 ≤ rAcc x := by
  have h1 := (rAcc_q_bounds x).2
  have h2 := Pj_lower x hx
  have h3 : (21 : ℚ) ≤ (rAcc 776363 : ℚ) := by exact_mod_cast B0_big
  have : (1 : ℚ) ≤ (rAcc x : ℚ) := by linarith
  exact_mod_cast this

lemma rAcc_le_pow (x : Nat) : rAcc x ≤ 2 ^ 128 := by
  rw [rAcc_eq_aux]
  have : ∀ j, j ≤ 20 → rAccAux x j ≤ 2 ^ 128 := by
    intro j
    induction j with
    | zero => intro _; exact le_rfl
    | succ j ih =>
      intro hj
      have hr := ih (by omega)
      show rStep x j (rAccAux x j) ≤ 2 ^ 128
      unfold rStep
      split
      · rw [Nat.shiftRight_eq_div_pow]
        calc rAccAux x j * tickC j / 2 ^ 128 ≤ 2 ^ 128 * 2 ^ 128 / 2 ^ 128 :=
            Nat.div_le_div_right (Nat.mul_le_mul hr (tickC_le j (by omega)))
          _ = 2 ^ 128 := by norm_num
      · exact hr
  exact this 20 le_rfl

/-- The inversion `(2^256 - 1) / r` maps an accumulator gap of `2 * 10^17`
to an output gap of at least `2^56`. -/
lemma inv_div_gap {a b : Nat} (hb : 1 ≤ b) (hgap : b + 2 * 10 ^ 17 ≤ a)
    (ha : a ≤ 2 ^ 128) :
    (2 ^ 256 - 1) / a + 2 ^ 56 ≤ (2 ^ 256 - 1) / b := by
  have ha0 : 0 < a := by omega
  have hq : 2 ^ 128 - 1 ≤ (2 ^ 256 - 1) / a := by
    calc (2 ^ 128 - 1 : ℕ) = (2 ^ 256 - 1) / 2 ^ 128 := by decide
      _ ≤ (2 ^ 256 - 1) / a := Nat.div_le_div_left ha ha0
  rw [Nat.le_div_iff_mul_le (show 0 < b by omega)]
  obtain ⟨d, hd⟩ : ∃ d, a = b + 2 * 10 ^ 17 + d := ⟨a - (b + 2 * 10 ^ 17), by omega⟩
  have hbound : 2 ^ 56 * b ≤ (2 ^ 256 - 1) / a * (2 * 10 ^ 17) := by
    calc 2 ^ 56 * b ≤ 2 ^ 56 * 2 ^ 128 := Nat.mul_le_mul_left _ (by omega)
      _ ≤ (2 ^ 128 - 1) * (2 * 10 ^ 17) := by decide
      _ ≤ (2 ^ 256 - 1) / a * (2 * 10 ^ 17) := Nat.mul_le_mul_right _ hq
  have hMa : (2 ^ 256 - 1) / a * a ≤ 2 ^ 256 - 1 := Nat.div_mul_le_self _ _
  calc ((2 ^ 256 - 1) / a + 2 ^ 56) * b
      = (2 ^ 256 - 1) / a * b + 2 ^ 56 * b := by ring
    _ ≤ (2 ^ 256 - 1) / a * b + (2 ^ 256 - 1) / a * (2 * 10 ^ 17) :=
        Nat.add_le_add_left hbound _
    _ ≤ (2 ^ 256 - 1) / a * b + (2 ^ 256 - 1) / a * (2 * 10 ^ 17) +
        (2 ^ 256 - 1) / a * d := Nat.le_add_right _ _
    _ = (2 ^ 256 - 1) / a * a := by rw [hd]; ring
    _ ≤ 2 ^ 256 - 1 := hMa

lemma tts_neg_eq (x : Nat) (hx : 1 ≤ x) :
    _tick_to_sqrt_p (-(x : Int)) = Int.ofNat (shrink (rAcc x)) := by
  simp only [_tick_to_sqrt_p, Int.natAbs_neg, Int.natAbs_ofNat]
  rw [if_neg (show ¬((-(x : Int)) ≥ 0) by omega)]

lemma tts_nonneg_eq (t : Nat) :
    _tick_to_sqrt_p (t : Int) = Int.ofNat (shrink ((2 ^ 256 - 1) / rAcc t)) := by
  simp only [_tick_to_sqrt_p, Int.natAbs_ofNat]
  rw [if_pos (show ((t : Int)) ≥ 0 by omega)]

lemma tts_step_neg (x : Nat) (h1 : 1 ≤ x) (hx : x + 1 ≤ 776363) :
    _tick_to_sqrt_p (-((x + 1 : Nat) : Int)) < _tick_to_sqrt_p (-(x : Int)) := by
  rw [tts_neg_eq (x + 1) (by omega), tts_neg_eq x h1]
  have hg := rAcc_gap x hx
  have hpow : (2 : ℕ) ^ 56 ≤ 2 * 10 ^ 17 := by norm_num
  exact Int.ofNat_lt.mpr (shrink_lt (show rAcc (x + 1) + 2 ^ 56 ≤ rAcc x by omega))

lemma tts_step_nonneg (t : Nat) (ht : t + 1 ≤ 776363) :
    _tick_to_sqrt_p (t : Int) < _tick_to_sqrt_p ((t + 1 : Nat) : Int) := by
  rw [tts_nonneg_eq t, tts_nonneg_eq (t + 1)]
  have hg := rAcc_gap t ht
  have hb1 : 1 ≤ rAcc (t + 1) := rAcc_ge_one (t + 1) ht
  have hle : rAcc t ≤ 2 ^ 128 := rAcc_le_pow t
  have hinv := inv_div_gap hb1 (show rAcc (t + 1) + 2 * 10 ^ 17 ≤ rAcc t by omega) hle
  exact Int.ofNat_lt.mpr (shrink_lt hinv)

lemma tts_boundary : _tick_to_sqrt_p (-1) < _tick_to_sqrt_p 0 := by decide

lemma tts_step (t : Int) (h1 : MIN_TICK ≤ t) (h2 : t < MAX_TICK) :
    _tick_to_sqrt_p t < _tick_to_sqrt_p (t + 1) := by
  have hmin : MIN_TICK = -776363 := rfl
  have hmax : MAX_TICK = 776363 := rfl
  rw [hmin] at h1
  rw [hmax] at h2
  rcases lt_trichotomy t (-1) with hlt | heq | hgt
  · obtain ⟨y, hy1, hy2, hy3⟩ : ∃ y : Nat, 1 ≤ y ∧ y + 1 ≤ 776363 ∧
        t = -(((y + 1 : Nat)) : ℤ) := by
      refine ⟨(-t).toNat - 1, by omega, by omega, by omega⟩
    have hstep := tts_step_neg y hy1 hy2
    rw [hy3]
    have hshift : (-(((y + 1 : Nat)) : ℤ)) + 1 = -((y : Nat) : ℤ) := by
      push_cast
      ring
    rw [hshift]
    exact hstep
  · rw [heq]
    have : ((-1 : ℤ) + 1) = 0 := by norm_num
    rw [this]
    exact tts_boundary
  · obtain ⟨n, hn1, hn2⟩ : ∃ n : Nat, t = (n : ℤ) ∧ n + 1 ≤ 776363 := by
      refine ⟨t.toNat, by omega, by omega⟩
    have hstep := tts_step_nonneg n hn2
    rw [hn1]
    have hshift : ((n : ℤ) + 1) = ((n + 1 : Nat) : ℤ) := by push_cast; ring
    rw [hshift]
    exact hstep

lemma tts_mono_aux : ∀ (n : Nat) (t : Int), MIN_TICK ≤ t → t + n + 1 ≤ MAX_TICK →
    _tick_to_sqrt_p t < _tick_to_sqrt_p (t + n + 1) := by
  intro n
  induction n with
  | zero =>
    intro t h1 h2
    have : t + ((0 : Nat) : ℤ) + 1 = t + 1 := by push_cast; ring
    rw [this] at h2 ⊢
    exact tts_step t h1 (by omega)
  | succ n ih =>
    intro t h1 h2
    have hc : t + ((n + 1 : Nat) : ℤ) + 1 = (t + n + 1) + 1 := by push_cast; ring
    rw [hc] at h2 ⊢
    have hmid := ih t h1 (by omega)
    have hnn : (0 : ℤ) ≤ ((n : Nat) : ℤ) := by positivity
    have hstep := tts_step (t + n + 1) (by omega) (by omega)
    exact lt_trans hmid hstep

/-- C8: `_tick_to_sqrt_p` is strictly increasing on the tick domain: for all
ticks `t1 < t2` in `[MIN_TICK, MAX_TICK]`, the 20-constant bit-decomposition
accumulation, the inversion for non-negative ticks, and the round-up shrink
from 128 to 72 fractional bits together still yield
`_tick_to_sqrt_p t1 < _tick_to_sqrt_p t2`. -/
theorem c8_tick_to_sqrt_p_strict_mono (t1 t2 : Int) (h1 : MIN_TICK ≤ t1)
    (hlt : t1 < t2) (h2 : t2 ≤ MAX_TICK) :
    _tick_to_sqrt_p t1 < _tick_to_sqrt_p t2 := by
  obtain ⟨n, hn⟩ : ∃ n : Nat, t2 = t1 + n + 1 := ⟨(t2 - t1 - 1).toNat, by omega⟩
  rw [hn]
  exact tts_mono_aux n t1 h1 (by omega)

theorem c8_tick_to_sqrt_p_strict_mono_witness :
    MIN_TICK ≤ (0 : ℤ) ∧ (0 : ℤ) < 1 ∧ (1 : ℤ) ≤ MAX_TICK ∧
    _tick_to_sqrt_p 0 < _tick_to_sqrt_p 1 :=
  ⟨by decide, by decide, by decide,
    c8_tick_to_sqrt_p_strict_mono 0 1 (by decide) (by decide) (by decide)⟩
